import Mathlib

/-!
The ardb sorted-set cache (`src/cache/zset_cache.cpp`).

A shallow embedding of `ZSetCache`: the ordering index `m_cache` (a `std::set` of
`ZSetCaheElement`, kept here as the ascending list of its elements), the member to score
index `m_cache_score_dict` (a map, kept here as an association list), and the 32-bit
memory counter `m_estimate_mem_size`.

Conventions of the embedding.
* Scores range over a type `S` of class `DoubleScore`: a total order, as the spec
  prescribes for the ordering of the elements, with the two zeros identified, and a
  marking `isNaN` of the values that are not a number. The test `==` of `Add` is the
  comparison of doubles, which fails on such values.
* A `ValueData` argument is represented by its encoded bytes (the contents of the
  `Buffer` after `Encode`), a score argument by its `NumberValue()`; a byte is a natural
  number, compared as an unsigned value.
* Iterators are indices into the ascending element list; `end()` is its length.
* `uint32` arithmetic is arithmetic modulo `2^32`.
* The callback of `GetRange` is represented by the list of its invocations; the cursor,
  an `int` in the source, is a natural number.
* The mutex is not modelled: every operation runs atomically.
-/

namespace Ardb

/-- Contents of a `std::string`: a sequence of byte values. -/
abbrev Bytes := List Nat

/-- The comparison `operator<` of `std::string`: lexicographic on bytes, a proper
prefix being smaller. -/
def strLt : Bytes → Bytes → Bool
  | _, [] => false
  | [], _ :: _ => true
  | a :: as, b :: bs => if a < b then true else if b < a then false else strLt as bs

/-- Modelled from the spec: the struct `ZSetCaheElement` is declared in a header that is
not part of the sources at hand. It has a 64-bit floating point `score`, the member
bytes `value` and the attribute bytes `attr`. -/
structure ZSetCaheElement (S : Type) where
  score : S
  value : Bytes
  attr : Bytes
deriving DecidableEq, Repr

/-- The scores: the doubles of the source. The order is the total order that the spec
prescribes for the ordering of the elements; `isNaN` marks the values that are not a
number, on which the comparison `==` of doubles fails. -/
class DoubleScore (S : Type) extends LinearOrder S where
  isNaN : S → Bool

/-- The comparison `==` of two doubles: false as soon as one of them is not a number. -/
def doubleEq {S : Type} [DoubleScore S] (a b : S) : Bool :=
  !DoubleScore.isNaN a && !DoubleScore.isNaN b && decide (a = b)

/-- The integers as scores, all of them numbers. -/
instance instDoubleScoreInt : DoubleScore Int :=
  { (inferInstance : LinearOrder Int) with isNaN := fun _ => false }

/-- The integers with one more value on top, which is not a number. -/
instance instDoubleScoreWithTopInt : DoubleScore (WithTop Int) :=
  { (inferInstance : LinearOrder (WithTop Int)) with isNaN := fun x => decide (x = ⊤) }

/-- Modelled from the spec: `ZSetCaheElement::operator<`, declared in the missing header.
Primary key `score` ascending, secondary key `value` bytes ascending; `attr` does not
take part in the comparison. -/
def ZSetCaheElement.lt {S : Type} [DoubleScore S] (a b : ZSetCaheElement S) : Bool :=
  if a.score < b.score then true
  else if b.score < a.score then false
  else strLt a.value b.value

/-- Modelled from the spec: the byte sizes `sizeof(ZSetCache)`, `sizeof(ZSetCaheElement)`
and `sizeof(double)`, which depend on declarations of the missing header and on the
platform. They are parameters of the embedding. -/
structure Sizeof where
  sizeofZSetCache : Nat
  sizeofZSetCaheElement : Nat
  sizeofDouble : Nat
deriving DecidableEq, Repr

/-- Truncation of a natural number to `uint32`. -/
def u32 (n : Nat) : Nat := n % 4294967296

/-- Modelled from the spec: the three outcome codes of `Add`, macros of the missing
header. -/
inductive AddResult where
  | ZSET_CACHE_NONEW_ELEMENT
  | ZSET_CACHE_NEW_ELEMENT
  | ZSET_CACHE_SCORE_CHANGED
deriving DecidableEq, Repr

/-- The container `ZSetCacheElementSet`: the elements of the `std::set` in ascending
order. -/
abbrev ZSetCacheElementSet (S : Type) := List (ZSetCaheElement S)

/-- The container `ZSetCacheScoreMap`: the entries of the member to score map. -/
abbrev ZSetCacheScoreMap (S : Type) := List (Bytes × S)

section Containers

variable {S : Type} [DoubleScore S]

/-- The lookup `set::find`: the element equivalent to `e` under `operator<`, if any
(`none` stands for `end()`). -/
def setFind (xs : ZSetCacheElementSet S) (e : ZSetCaheElement S) :
    Option (ZSetCaheElement S) :=
  match xs with
  | [] => none
  | x :: r => if x.lt e then setFind r e else if e.lt x then none else some x

/-- The insertion `set::insert`: ordered insertion, without effect when an equivalent
element is already stored. -/
def setInsert (xs : ZSetCacheElementSet S) (e : ZSetCaheElement S) :
    ZSetCacheElementSet S :=
  match xs with
  | [] => [e]
  | x :: r =>
    if e.lt x then e :: x :: r
    else if x.lt e then x :: setInsert r e
    else x :: r

/-- The lookup `set::lower_bound`: position of the first element that is not less than
`e`; the length of the list when there is none. -/
def lower_bound (xs : ZSetCacheElementSet S) (e : ZSetCaheElement S) : Nat :=
  match xs with
  | [] => 0
  | x :: r => if x.lt e then lower_bound r e + 1 else 0

/-- The lookup `map::find` on the member to score map. -/
def dictFind (d : ZSetCacheScoreMap S) (key : Bytes) : Option S :=
  match d with
  | [] => none
  | p :: r => if p.1 = key then some p.2 else dictFind r key

/-- Assignment to the mapped value of `key`: through `operator[]`, which creates the
entry when the key is absent, or through an iterator to the existing entry. -/
def dictSet (d : ZSetCacheScoreMap S) (key : Bytes) (v : S) : ZSetCacheScoreMap S :=
  match d with
  | [] => [(key, v)]
  | p :: r => if p.1 = key then (key, v) :: r else p :: dictSet r key v

/-- The removal `map::erase` of the entry of `key`. -/
def dictErase (d : ZSetCacheScoreMap S) (key : Bytes) : ZSetCacheScoreMap S :=
  d.filter (fun p => !decide (p.1 = key))

end Containers

/-- The state of a `ZSetCache` object. -/
structure ZSetCache (S : Type) where
  m_cache : ZSetCacheElementSet S
  m_cache_score_dict : ZSetCacheScoreMap S
  m_estimate_mem_size : Nat
deriving DecidableEq, Repr

/-- The range argument `ZRangeSpec` of `GetRange`. -/
structure ZRangeSpec (S : Type) where
  min : S
  max : S
  contain_min : Bool
  contain_max : Bool
deriving DecidableEq, Repr

/-- A value handed to the callback of `GetRange`, tagged by the call site that produced
it: the decoded member, the score, or the decoded attribute. -/
inductive CbValue (S : Type) where
  | member (v : Bytes)
  | score (s : S)
  | attr (a : Bytes)
deriving DecidableEq, Repr

namespace ZSetCache

variable {S : Type} [DoubleScore S]

/-- The constructor `ZSetCache::ZSetCache`: both indexes empty, the counter set to
`sizeof(ZSetCache)`. -/
def new (sz : Sizeof) : ZSetCache S :=
  { m_cache := [], m_cache_score_dict := [], m_estimate_mem_size := u32 sz.sizeofZSetCache }

/-- Modelled from the spec: `AddEstimateMemSize`, declared in the missing header: the
running 32-bit counter is increased by `delta`. -/
def AddEstimateMemSize (c : ZSetCache S) (delta : Nat) : ZSetCache S :=
  { c with m_estimate_mem_size := u32 (c.m_estimate_mem_size + delta) }

/-- Modelled from the spec: `SubEstimateMemSize`, declared in the missing header: the
running 32-bit counter is decreased by `delta`, modulo `2^32`. -/
def SubEstimateMemSize (c : ZSetCache S) (delta : Nat) : ZSetCache S :=
  { c with m_estimate_mem_size := u32 (c.m_estimate_mem_size + (4294967296 - u32 delta)) }

/-- The method `ZSetCache::EraseElement`. -/
def EraseElement (sz : Sizeof) (c : ZSetCache S) (e : ZSetCaheElement S) : ZSetCache S :=
  match setFind c.m_cache e with
  | some found =>
    let delta := u32 sz.sizeofZSetCaheElement
    let delta := u32 (delta + found.value.length)
    let delta := u32 (delta + found.attr.length)
    let c := c.SubEstimateMemSize delta
    { c with m_cache := c.m_cache.erase found }
  | none => c

/-- The method `ZSetCache::Rem`; `v` is the encoded member. -/
def Rem (sz : Sizeof) (c : ZSetCache S) (v : Bytes) : Int × ZSetCache S :=
  match dictFind c.m_cache_score_dict v with
  | some sit =>
    let e : ZSetCaheElement S := { score := sit, value := v, attr := [] }
    let c := c.EraseElement sz e
    let delta := 0
    let delta := u32 (delta + e.value.length)
    let delta := u32 (delta + sz.sizeofDouble)
    let c := c.SubEstimateMemSize delta
    (0, { c with m_cache_score_dict := dictErase c.m_cache_score_dict v })
  | none => (-1, c)

/-- The method `ZSetCache::Add` on `ValueData` arguments; `value` and `attr` are the
encoded member and attribute. The flag `thread_safe` only selects whether the mutex is
taken. -/
def Add (sz : Sizeof) (c : ZSetCache S) (score : S) (value attr : Bytes)
    (thread_safe : Bool) : AddResult × ZSetCache S :=
  let _ := thread_safe
  match dictFind c.m_cache_score_dict value with
  | some sit =>
    if doubleEq sit score = true then (AddResult.ZSET_CACHE_NONEW_ELEMENT, c)
    else
      let c := c.EraseElement sz { score := sit, value := value, attr := attr }
      let c := { c with m_cache_score_dict := dictSet c.m_cache_score_dict value score }
      let e : ZSetCaheElement S := { score := score, value := value, attr := attr }
      let delta := 0
      let c := { c with m_cache := setInsert c.m_cache e }
      let delta := u32 (delta + sz.sizeofZSetCaheElement)
      let delta := u32 (delta + e.value.length)
      let delta := u32 (delta + e.attr.length)
      (AddResult.ZSET_CACHE_SCORE_CHANGED, c.AddEstimateMemSize delta)
  | none =>
    let e : ZSetCaheElement S := { score := score, value := value, attr := attr }
    let delta := 0
    let c := { c with m_cache_score_dict := dictSet c.m_cache_score_dict e.value score }
    let delta := u32 (delta + e.value.length)
    let delta := u32 (delta + sz.sizeofDouble)
    let c := { c with m_cache := setInsert c.m_cache e }
    let delta := u32 (delta + sz.sizeofZSetCaheElement)
    let delta := u32 (delta + e.value.length)
    let delta := u32 (delta + e.attr.length)
    (AddResult.ZSET_CACHE_NEW_ELEMENT, c.AddEstimateMemSize delta)

/-- The two adjustment loops of `GetRange`:
`while (flag && it != end && it->score == x) it++`. The list is the part of the index
from position `it` on. The test is taken as equality of scores: it agrees with `==` of
doubles unless the bound `x` is not a number, a case in which the positions found by
`lower_bound` depend on `operator<` of the missing header. -/
def skipScore (flag : Bool) (x : S) : ZSetCacheElementSet S → Nat → Nat
  | [], it => it
  | e :: r, it => if flag = true ∧ e.score = x then skipScore flag x r (it + 1) else it

/-- The emitting loop of `GetRange`:
`while (min_it != max_it && min_it != end) { ...; min_it++; }`. The list is the part of
the index from position `min_it` on; the result lists the callback invocations, each
with the value and the cursor it received. -/
def scanLoop (with_scores with_attrs : Bool) (max_it : Nat) :
    ZSetCacheElementSet S → Nat → Nat → List (CbValue S × Nat)
  | [], _, _ => []
  | e :: r, min_it, cursor =>
    if min_it ≠ max_it then
      let out := [(CbValue.member e.value, cursor)]
      let cursor := cursor + 1
      let out := if with_scores then out ++ [(CbValue.score e.score, cursor)] else out
      let cursor := if with_scores then cursor + 1 else cursor
      let out := if with_attrs then out ++ [(CbValue.attr e.attr, cursor)] else out
      let cursor := if with_attrs then cursor + 1 else cursor
      out ++ scanLoop with_scores with_attrs max_it r (min_it + 1) cursor
    else []

/-- The method `ZSetCache::GetRange`: the sequence of callback invocations it makes. The
timing of the scan and the warning it may log are not modelled. -/
def GetRange (c : ZSetCache S) (range : ZRangeSpec S) (with_scores with_attrs : Bool) :
    List (CbValue S × Nat) :=
  let min_ele : ZSetCaheElement S := { score := range.min, value := [], attr := [] }
  let max_ele : ZSetCaheElement S := { score := range.max, value := [], attr := [] }
  let min_it := lower_bound c.m_cache min_ele
  let max_it := lower_bound c.m_cache max_ele
  if min_it ≠ c.m_cache.length then
    let min_it := skipScore (!range.contain_min) range.min (c.m_cache.drop min_it) min_it
    let max_it := skipScore range.contain_max range.max (c.m_cache.drop max_it) max_it
    scanLoop with_scores with_attrs max_it (c.m_cache.drop min_it) min_it 0
  else []

end ZSetCache

/-- A call made on the cache: `Add(score, member, attr, thread_safe)` or `Rem(member)`. -/
inductive Op (S : Type) where
  | add (score : S) (member attr : Bytes) (thread_safe : Bool)
  | rem (member : Bytes)
deriving DecidableEq, Repr

section Runs

variable {S : Type} [DoubleScore S]

/-- The state after one call. -/
def step (sz : Sizeof) (c : ZSetCache S) : Op S → ZSetCache S
  | Op.add score member attr thread_safe => (c.Add sz score member attr thread_safe).2
  | Op.rem member => (c.Rem sz member).2

/-- The state after a sequence of calls on the freshly constructed cache. -/
def run (sz : Sizeof) (ops : List (Op S)) : ZSetCache S :=
  ops.foldl (step sz) (ZSetCache.new sz)

/-- The members handed to the callback, in emission order. -/
def emittedMembers (calls : List (CbValue S × Nat)) : List Bytes :=
  calls.filterMap (fun p => match p.1 with
    | CbValue.member v => some v
    | _ => none)

end Runs

/-! ## Vocabulary of the statements -/

section Vocabulary

variable {S : Type} [DoubleScore S]

/-- The list is strictly ascending for `operator<`. -/
def Ascending (xs : ZSetCacheElementSet S) : Prop :=
  xs.Pairwise (fun a b => a.lt b = true)

/-- Bytes accounted for one element of the ordering index. -/
def elementCost (sz : Sizeof) (e : ZSetCaheElement S) : Nat :=
  sz.sizeofZSetCaheElement + e.value.length + e.attr.length

/-- Bytes accounted for one entry of the member to score index. -/
def entryCost (sz : Sizeof) (m : Bytes) : Nat :=
  m.length + sz.sizeofDouble

/-- Bytes accounted for all elements of the ordering index together with their entries
in the member to score index. -/
def totalCost (sz : Sizeof) (xs : ZSetCacheElementSet S) : Nat :=
  (xs.map (fun e => elementCost sz e + entryCost sz e.value)).sum

/-- The invariant kept by `Add` and `Rem`: the ordering index is strictly ascending, it
stores exactly the members of the member to score index, with the same scores, and the
counter is the base size plus the cost of what is stored, modulo `2^32`. -/
structure Inv (sz : Sizeof) (c : ZSetCache S) : Prop where
  ascending : Ascending c.m_cache
  dict_of_mem : ∀ e ∈ c.m_cache, dictFind c.m_cache_score_dict e.value = some e.score
  mem_of_dict : ∀ m sc, dictFind c.m_cache_score_dict m = some sc →
    ∃ e ∈ c.m_cache, e.value = m ∧ e.score = sc
  acct : c.m_estimate_mem_size = u32 (sz.sizeofZSetCache + totalCost sz c.m_cache)

/-- The score lies in the interval of the range: `min <= s` when `contain_min` and
`min < s` otherwise, `s <= max` when `contain_max` and `s < max` otherwise. -/
def ZRangeSpec.contains (range : ZRangeSpec S) (s : S) : Bool :=
  (if range.contain_min then decide (range.min ≤ s) else decide (range.min < s)) &&
    (if range.contain_max then decide (s ≤ range.max) else decide (s < range.max))

/-- The interval is well formed: `min < max`, or `min = max` with a bound included. -/
def ZRangeSpec.wellFormed (range : ZRangeSpec S) : Prop :=
  range.min < range.max ∨
    (range.min = range.max ∧ (range.contain_min = true ∨ range.contain_max = true))

/-- The element lies before the position reached from the probe of score `x`: its score
is below `x`, or equal to `x` when the adjustment loop runs. -/
def beforeMark (flag : Bool) (x : S) (e : ZSetCaheElement S) : Bool :=
  decide (e.score < x) || (flag && decide (e.score = x))

/-- The elements visited by the emitting loop of `GetRange`. -/
def scanElems (max_it : Nat) : ZSetCacheElementSet S → Nat → ZSetCacheElementSet S
  | [], _ => []
  | e :: r, min_it => if min_it ≠ max_it then e :: scanElems max_it r (min_it + 1) else []

/-- The scores do not decrease along the list. -/
def ScoreSorted (xs : ZSetCacheElementSet S) : Prop :=
  xs.Pairwise (fun a b => a.score ≤ b.score)

/-- Removal of the listed members, one `Rem` call each, in list order. -/
def remAll (sz : Sizeof) (ms : List Bytes) (c : ZSetCache S) : ZSetCache S :=
  ms.foldl (fun c m => (c.Rem sz m).2) c

/-- Sample byte sizes for the concrete instances below. -/
def sampleSizes : Sizeof :=
  { sizeofZSetCache := 64, sizeofZSetCaheElement := 24, sizeofDouble := 8 }

/-- Four members `a`, `b`, `c`, `d` with the scores 1, 2, 2, 3; `b` carries an
attribute. -/
def sampleOps : List (Op Int) :=
  [Op.add 1 [97] [] true, Op.add 2 [98] [5] true, Op.add 2 [99] [] false,
    Op.add 3 [100] [] true]

/-- The values handed to the callback for one visited element, in call order: the
member, then the score when `with_scores`, then the attribute when `with_attrs`. -/
def elementValues (with_scores with_attrs : Bool) (e : ZSetCaheElement S) :
    List (CbValue S) :=
  CbValue.member e.value ::
    ((if with_scores then [CbValue.score e.score] else []) ++
      (if with_attrs then [CbValue.attr e.attr] else []))

/-- The elements for which the emitting loop of `GetRange` runs its body, in visiting
order: `GetRange` with the body of the loop reduced to recording the element. -/
def ZSetCache.visited (c : ZSetCache S) (range : ZRangeSpec S) : ZSetCacheElementSet S :=
  let min_ele : ZSetCaheElement S := { score := range.min, value := [], attr := [] }
  let max_ele : ZSetCaheElement S := { score := range.max, value := [], attr := [] }
  let min_it := lower_bound c.m_cache min_ele
  let max_it := lower_bound c.m_cache max_ele
  if min_it ≠ c.m_cache.length then
    let min_it :=
      ZSetCache.skipScore (!range.contain_min) range.min (c.m_cache.drop min_it) min_it
    let max_it :=
      ZSetCache.skipScore range.contain_max range.max (c.m_cache.drop max_it) max_it
    scanElems max_it (c.m_cache.drop min_it) min_it
  else []

/-- The invocations that the emission protocol prescribes for a list of visited
elements: the values of each element in turn, the k-th invocation with cursor k. -/
def protocolCalls (with_scores with_attrs : Bool) (visited : ZSetCacheElementSet S) :
    List (CbValue S × Nat) :=
  ((visited.map (elementValues with_scores with_attrs)).flatten.enum).map
    (fun p => (p.2, p.1))

/-- Modelled from the spec: the value encoding collaborator, whose declarations
(`ValueData`, `Slice`, `SetValue`, `Encode`) are in a header that is not part of the
sources at hand. A `ValueData` is represented by its encoded bytes: `SetValue v s flag`
is the encoding of `v` after `v.SetValue(s, flag)`, and `empty` is the encoding of a
default constructed `ValueData`. -/
structure ValueCodec where
  SetValue : Bytes → Bytes → Bool → Bytes
  empty : Bytes

/-- The method `ZSetCache::Add` on `Slice` arguments. -/
def ZSetCache.AddSlice (codec : ValueCodec) (sz : Sizeof) (c : ZSetCache S) (score : S)
    (value attr : Bytes) (thread_safe : Bool) : AddResult × ZSetCache S :=
  let v := codec.empty
  let a := codec.empty
  let v := codec.SetValue v value true
  let v := codec.SetValue v attr true
  c.Add sz score v a thread_safe

/-- The `ValueData` overload of `Add` called with the member built from the slice `value`
and the attribute built from the slice `attr`, each in a `ValueData` of its own. -/
def ZSetCache.AddOwnFields (codec : ValueCodec) (sz : Sizeof) (c : ZSetCache S) (score : S)
    (value attr : Bytes) (thread_safe : Bool) : AddResult × ZSetCache S :=
  c.Add sz score (codec.SetValue codec.empty value true)
    (codec.SetValue codec.empty attr true) thread_safe

/-- The codec in which a value built from a slice is encoded as the bytes of the slice
and the default value as no bytes. -/
def rawCodec : ValueCodec :=
  { SetValue := fun _ s _ => s, empty := [] }

end Vocabulary

/-! ## The orderings -/

theorem strLt_nil_right (a : Bytes) : strLt a [] = false := by
  cases a <;> rfl

theorem strLt_irrefl (a : Bytes) : strLt a a = false := by
  induction a with
  | nil => rfl
  | cons x r ih => simp [strLt, ih]

theorem strLt_trans : ∀ (a b c : Bytes), strLt a b = true → strLt b c = true →
    strLt a c = true
  | _, [], _, h, _ => by simp [strLt_nil_right] at h
  | _, _ :: _, [], _, h => by simp [strLt] at h
  | [], _ :: _, _ :: _, _, _ => by simp [strLt]
  | x :: r, y :: t, z :: u, h1, h2 => by
    simp only [strLt] at h1 h2 ⊢
    by_cases hxy : x < y
    · by_cases hyz : y < z
      · have : x < z := lt_trans hxy hyz
        simp [this]
      · simp only [hyz, if_false] at h2
        by_cases hzy : z < y
        · simp [hzy] at h2
        · have : y = z := le_antisymm (not_lt.mp hzy) (not_lt.mp hyz)
          subst this
          simp [hxy]
    · simp only [hxy, if_false] at h1
      by_cases hyx : y < x
      · simp [hyx] at h1
      · have hx : x = y := le_antisymm (not_lt.mp hyx) (not_lt.mp hxy)
        subst hx
        simp only [hyx, if_false] at h1
        by_cases hxz : x < z
        · simp [hxz]
        · simp only [hxz, if_false] at h2 ⊢
          by_cases hzx : z < x
          · simp [hzx] at h2
          · simp only [hzx, if_false] at h2 ⊢
            exact strLt_trans r t u h1 h2

theorem strLt_total : ∀ (a b : Bytes), strLt a b = false → strLt b a = false → a = b
  | [], [], _, _ => rfl
  | [], _ :: _, h, _ => by simp [strLt] at h
  | _ :: _, [], _, h => by simp [strLt] at h
  | x :: r, y :: t, h1, h2 => by
    simp only [strLt] at h1 h2
    by_cases hxy : x < y
    · simp [hxy] at h1
    · by_cases hyx : y < x
      · simp [hyx] at h2
      · simp only [hxy, hyx, if_false] at h1 h2
        have hx : x = y := le_antisymm (not_lt.mp hyx) (not_lt.mp hxy)
        rw [hx, strLt_total r t h1 h2]

section OrderLemmas

variable {S : Type} [DoubleScore S]

theorem elemLt_iff (a b : ZSetCaheElement S) :
    a.lt b = true ↔ a.score < b.score ∨ (a.score = b.score ∧ strLt a.value b.value = true) := by
  unfold ZSetCaheElement.lt
  by_cases h1 : a.score < b.score
  · simp [h1]
  · by_cases h2 : b.score < a.score
    · have : a.score ≠ b.score := fun h => by rw [h] at h2; exact lt_irrefl _ h2
      simp [h1, h2, this]
    · have : a.score = b.score := le_antisymm (not_lt.mp h2) (not_lt.mp h1)
      simp [h1, h2, this]

theorem elemLt_irrefl (a : ZSetCaheElement S) : a.lt a = false := by
  cases h : a.lt a
  · rfl
  · rw [elemLt_iff] at h
    simp [strLt_irrefl] at h

theorem elemLt_trans {a b c : ZSetCaheElement S} (h1 : a.lt b = true)
    (h2 : b.lt c = true) : a.lt c = true := by
  rw [elemLt_iff] at h1 h2 ⊢
  rcases h1 with h1 | ⟨e1, s1⟩
  · rcases h2 with h2 | ⟨e2, _⟩
    · exact Or.inl (lt_trans h1 h2)
    · exact Or.inl (e2 ▸ h1)
  · rcases h2 with h2 | ⟨e2, s2⟩
    · exact Or.inl (e1 ▸ h2)
    · exact Or.inr ⟨e1.trans e2, strLt_trans _ _ _ s1 s2⟩

theorem elemLt_equiv {a b : ZSetCaheElement S} (h1 : a.lt b = false)
    (h2 : b.lt a = false) : a.score = b.score ∧ a.value = b.value := by
  have n1 : ¬ a.lt b = true := by simp [h1]
  have n2 : ¬ b.lt a = true := by simp [h2]
  rw [elemLt_iff] at n1 n2
  have hs : a.score = b.score :=
    le_antisymm (not_lt.mp fun h => n2 (Or.inl h)) (not_lt.mp fun h => n1 (Or.inl h))
  refine ⟨hs, strLt_total _ _ ?_ ?_⟩
  · cases h : strLt a.value b.value
    · rfl
    · exact absurd (Or.inr ⟨hs, h⟩) n1
  · cases h : strLt b.value a.value
    · rfl
    · exact absurd (Or.inr ⟨hs.symm, h⟩) n2

theorem elemLt_of_equiv {a b : ZSetCaheElement S} (hs : a.score = b.score)
    (hv : a.value = b.value) : a.lt b = false := by
  cases h : a.lt b
  · rfl
  · rw [elemLt_iff] at h
    rw [hs, hv] at h
    simp [strLt_irrefl] at h

/-- Against a probe with the empty member, `operator<` compares the scores only. -/
theorem elemLt_probe (e : ZSetCaheElement S) (x : S) (a : Bytes) :
    e.lt { score := x, value := [], attr := a } = true ↔ e.score < x := by
  rw [elemLt_iff]
  simp [strLt_nil_right]

end OrderLemmas

/-! ## The ordering index as an ascending list -/

section SetLemmas

variable {S : Type} [DoubleScore S]

theorem Ascending.nodup {xs : ZSetCacheElementSet S} (h : Ascending xs) : xs.Nodup := by
  refine List.Pairwise.imp ?_ h
  intro a b hab heq
  rw [heq, elemLt_irrefl] at hab
  exact Bool.noConfusion hab

theorem Ascending.erase {xs : ZSetCacheElementSet S} (h : Ascending xs)
    (x : ZSetCaheElement S) : Ascending (xs.erase x) :=
  List.Pairwise.sublist (List.erase_sublist x xs) h

theorem mem_setInsert {xs : ZSetCacheElementSet S} {e y : ZSetCaheElement S}
    (h : y ∈ setInsert xs e) : y = e ∨ y ∈ xs := by
  induction xs with
  | nil => simpa [setInsert] using h
  | cons x r ih =>
    unfold setInsert at h
    split_ifs at h with h1 h2
    · rcases List.mem_cons.mp h with h | h
      · exact Or.inl h
      · exact Or.inr h
    · rcases List.mem_cons.mp h with h | h
      · exact Or.inr (h ▸ List.mem_cons_self _ _)
      · rcases ih h with h | h
        · exact Or.inl h
        · exact Or.inr (List.mem_cons_of_mem _ h)
    · exact Or.inr h

theorem setInsert_ascending {xs : ZSetCacheElementSet S} (h : Ascending xs)
    (e : ZSetCaheElement S) : Ascending (setInsert xs e) := by
  induction xs with
  | nil => simp [setInsert, Ascending]
  | cons x r ih =>
    have hx := (List.pairwise_cons.mp h).1
    have hr := (List.pairwise_cons.mp h).2
    unfold setInsert
    split_ifs with h1 h2
    · refine List.pairwise_cons.mpr ⟨?_, h⟩
      intro y hy
      rcases List.mem_cons.mp hy with hy | hy
      · rw [hy]; exact h1
      · exact elemLt_trans h1 (hx y hy)
    · refine List.pairwise_cons.mpr ⟨?_, ih hr⟩
      intro y hy
      rcases mem_setInsert hy with hy | hy
      · rw [hy]; exact h2
      · exact hx y hy
    · exact h

/-- Inserting an element whose member is not stored yet adds exactly that element. -/
theorem setInsert_perm {xs : ZSetCacheElementSet S} {e : ZSetCaheElement S}
    (h : ∀ x ∈ xs, x.value ≠ e.value) : (setInsert xs e).Perm (e :: xs) := by
  induction xs with
  | nil => simp [setInsert]
  | cons x r ih =>
    unfold setInsert
    split_ifs with h1 h2
    · exact List.Perm.refl _
    · exact ((ih fun y hy => h y (List.mem_cons_of_mem _ hy)).cons x).trans
        (List.Perm.swap e x r)
    · have h1f : e.lt x = false := by simpa using h1
      have h2f : x.lt e = false := by simpa using h2
      exact absurd (elemLt_equiv h2f h1f).2 (h x (List.mem_cons_self _ _))

theorem setFind_some {xs : ZSetCacheElementSet S} {e x : ZSetCaheElement S}
    (h : setFind xs e = some x) : x ∈ xs ∧ x.score = e.score ∧ x.value = e.value := by
  induction xs with
  | nil => simp [setFind] at h
  | cons y r ih =>
    unfold setFind at h
    split_ifs at h with h1 h2
    · exact ⟨List.mem_cons_of_mem _ (ih h).1, (ih h).2⟩
    · have h1f : y.lt e = false := by simpa using h1
      have h2f : e.lt y = false := by simpa using h2
      have hxy : y = x := Option.some.inj h
      subst hxy
      exact ⟨List.mem_cons_self _ _, elemLt_equiv h1f h2f⟩

theorem setFind_of_mem {xs : ZSetCacheElementSet S} (hs : Ascending xs)
    {e x : ZSetCaheElement S} (hx : x ∈ xs) (h1 : x.score = e.score)
    (h2 : x.value = e.value) : setFind xs e = some x := by
  induction xs with
  | nil => cases hx
  | cons y r ih =>
    have hy := (List.pairwise_cons.mp hs).1
    have hr := (List.pairwise_cons.mp hs).2
    unfold setFind
    rcases List.mem_cons.mp hx with hx | hx
    · subst hx
      rw [elemLt_of_equiv h1 h2, elemLt_of_equiv h1.symm h2.symm]
      simp
    · have hyx : y.lt x = true := hy x hx
      have hye : y.lt e = true := by
        rw [elemLt_iff] at hyx ⊢
        rw [← h1, ← h2]
        exact hyx
      rw [hye]
      simpa using ih hr hx

end SetLemmas

/-! ## The member to score index -/

section DictLemmas

variable {S : Type}

theorem dictFind_dictSet_same (d : ZSetCacheScoreMap S) (k : Bytes) (v : S) :
    dictFind (dictSet d k v) k = some v := by
  induction d with
  | nil => simp [dictSet, dictFind]
  | cons p r ih =>
    unfold dictSet
    split_ifs with h
    · simp [dictFind]
    · simp [dictFind, h, ih]

theorem dictFind_dictSet_other (d : ZSetCacheScoreMap S) {k k2 : Bytes} (v : S)
    (hk : k2 ≠ k) : dictFind (dictSet d k v) k2 = dictFind d k2 := by
  induction d with
  | nil => simp [dictSet, dictFind, Ne.symm hk]
  | cons p r ih =>
    unfold dictSet
    split_ifs with h
    · have : p.1 ≠ k2 := fun e => hk (e.symm.trans h)
      simp [dictFind, this, Ne.symm hk]
    · by_cases h2 : p.1 = k2
      · simp [dictFind, h2]
      · simp [dictFind, h2, ih]

theorem dictFind_dictErase_same (d : ZSetCacheScoreMap S) (k : Bytes) :
    dictFind (dictErase d k) k = none := by
  induction d with
  | nil => simp [dictErase, dictFind]
  | cons p r ih =>
    unfold dictErase at ih ⊢
    by_cases h : p.1 = k
    · simp [List.filter_cons, h, ih]
    · simp [List.filter_cons, h, dictFind, ih]

theorem dictFind_dictErase_other (d : ZSetCacheScoreMap S) {k k2 : Bytes} (hk : k2 ≠ k) :
    dictFind (dictErase d k) k2 = dictFind d k2 := by
  induction d with
  | nil => simp [dictErase, dictFind]
  | cons p r ih =>
    unfold dictErase at ih ⊢
    by_cases h : p.1 = k
    · have h3 : p.1 ≠ k2 := fun e => hk (e.symm.trans h)
      rw [List.filter_cons]
      simp only [h, decide_True, Bool.not_true, Bool.false_eq_true, if_false]
      rw [ih]
      simp [dictFind, h3]
    · rw [List.filter_cons]
      simp only [h, decide_False, Bool.not_false, if_true]
      by_cases h2 : p.1 = k2
      · simp [dictFind, h2]
      · simp [dictFind, h2, ih]

/-- The keys of the map are the members on which the lookup succeeds. -/
theorem mem_keys_iff (d : ZSetCacheScoreMap S) (k : Bytes) :
    k ∈ d.map Prod.fst ↔ ∃ v, dictFind d k = some v := by
  induction d with
  | nil => simp [dictFind]
  | cons p r ih =>
    by_cases h : p.1 = k
    · simp [dictFind, h]
    · have h2 : ¬ k = p.1 := fun e => h e.symm
      simp only [List.map_cons, List.mem_cons, h2, false_or, dictFind, h, if_false]
      exact ih

end DictLemmas

/-! ## Effect of the mutations, case by case -/

section Effects

variable {S : Type} [DoubleScore S]

theorem u32_lt (n : Nat) : u32 n < 4294967296 := Nat.mod_lt _ (by decide)

theorem u32_of_lt {n : Nat} (h : n < 4294967296) : u32 n = n := Nat.mod_eq_of_lt h

theorem u32_add_left (a b : Nat) : u32 (u32 a + b) = u32 (a + b) := by
  unfold u32; omega

theorem u32_add_right (a b : Nat) : u32 (a + u32 b) = u32 (a + b) := by
  unfold u32; omega

theorem u32_idem (a : Nat) : u32 (u32 a) = u32 a := by
  unfold u32; omega

theorem EraseElement_of_mem (sz : Sizeof) {c : ZSetCache S} (hs : Ascending c.m_cache)
    (e : ZSetCaheElement S) {x : ZSetCaheElement S} (hx : x ∈ c.m_cache) (h1 : x.score = e.score)
    (h2 : x.value = e.value) :
    c.EraseElement sz e =
      { m_cache := c.m_cache.erase x
        m_cache_score_dict := c.m_cache_score_dict
        m_estimate_mem_size :=
          u32 (c.m_estimate_mem_size + (4294967296 - u32 (elementCost sz x))) } := by
  unfold ZSetCache.EraseElement
  rw [setFind_of_mem hs hx h1 h2]
  simp only [ZSetCache.SubEstimateMemSize, u32_add_left, u32_idem, elementCost]

theorem Add_new (sz : Sizeof) {c : ZSetCache S} (score : S) {value : Bytes} (attr : Bytes)
    (ts : Bool) (h : dictFind c.m_cache_score_dict value = none) :
    c.Add sz score value attr ts =
      (AddResult.ZSET_CACHE_NEW_ELEMENT,
        { m_cache := setInsert c.m_cache { score := score, value := value, attr := attr }
          m_cache_score_dict := dictSet c.m_cache_score_dict value score
          m_estimate_mem_size :=
            u32 (c.m_estimate_mem_size +
              (elementCost sz ({ score := score, value := value, attr := attr } :
                ZSetCaheElement S) + entryCost sz value)) }) := by
  unfold ZSetCache.Add
  simp only [h, ZSetCache.AddEstimateMemSize, u32_add_left, u32_add_right, elementCost,
    entryCost, Nat.zero_add]
  refine Prod.ext rfl ?_
  simp only
  congr 2
  omega

theorem doubleEq_iff (a b : S) :
    doubleEq a b = true ↔ a = b ∧ DoubleScore.isNaN a = false := by
  unfold doubleEq
  simp only [Bool.and_eq_true, Bool.not_eq_true', decide_eq_true_eq]
  constructor
  · rintro ⟨⟨h1, _⟩, h3⟩
    exact ⟨h3, h1⟩
  · rintro ⟨h1, h2⟩
    exact ⟨⟨h2, h1 ▸ h2⟩, h1⟩

theorem doubleEq_self {a : S} (h : DoubleScore.isNaN a = false) : doubleEq a a = true :=
  (doubleEq_iff a a).mpr ⟨rfl, h⟩

theorem Add_same (sz : Sizeof) {c : ZSetCache S} {sit score : S} {value : Bytes}
    (attr : Bytes) (ts : Bool) (h : dictFind c.m_cache_score_dict value = some sit)
    (heq : doubleEq sit score = true) :
    c.Add sz score value attr ts = (AddResult.ZSET_CACHE_NONEW_ELEMENT, c) := by
  unfold ZSetCache.Add
  simp [h, heq]

theorem Add_changed (sz : Sizeof) {c : ZSetCache S} (hs : Ascending c.m_cache)
    {x : ZSetCaheElement S} (hx : x ∈ c.m_cache)
    (hd : dictFind c.m_cache_score_dict x.value = some x.score)
    {score : S} (hne : doubleEq x.score score = false) (attr : Bytes) (ts : Bool) :
    c.Add sz score x.value attr ts =
      (AddResult.ZSET_CACHE_SCORE_CHANGED,
        { m_cache :=
            setInsert (c.m_cache.erase x) { score := score, value := x.value, attr := attr }
          m_cache_score_dict := dictSet c.m_cache_score_dict x.value score
          m_estimate_mem_size :=
            u32 (u32 (c.m_estimate_mem_size + (4294967296 - u32 (elementCost sz x))) +
              elementCost sz ({ score := score, value := x.value, attr := attr } :
                ZSetCaheElement S)) }) := by
  unfold ZSetCache.Add
  simp only [hd, hne, Bool.false_eq_true, if_false]
  rw [EraseElement_of_mem sz hs { score := x.score, value := x.value, attr := attr } hx rfl rfl]
  simp only [ZSetCache.AddEstimateMemSize, u32_add_left, u32_add_right, u32_idem, elementCost,
    Nat.zero_add]

theorem Rem_absent (sz : Sizeof) {c : ZSetCache S} {v : Bytes}
    (h : dictFind c.m_cache_score_dict v = none) : c.Rem sz v = (-1, c) := by
  unfold ZSetCache.Rem
  simp [h]

theorem Rem_present (sz : Sizeof) {c : ZSetCache S} (hs : Ascending c.m_cache)
    {x : ZSetCaheElement S} (hx : x ∈ c.m_cache)
    (hd : dictFind c.m_cache_score_dict x.value = some x.score) :
    c.Rem sz x.value =
      (0,
        { m_cache := c.m_cache.erase x
          m_cache_score_dict := dictErase c.m_cache_score_dict x.value
          m_estimate_mem_size :=
            u32 (u32 (c.m_estimate_mem_size + (4294967296 - u32 (elementCost sz x))) +
              (4294967296 - u32 (entryCost sz x.value))) }) := by
  unfold ZSetCache.Rem
  simp only [hd]
  rw [EraseElement_of_mem sz hs { score := x.score, value := x.value, attr := [] } hx rfl rfl]
  simp only [ZSetCache.SubEstimateMemSize, u32_add_left, u32_add_right, u32_idem, entryCost,
    Nat.zero_add]

end Effects

/-! ## The invariant of the reachable states -/

section Invariant

variable {S : Type}

theorem totalCost_cons (sz : Sizeof) (e : ZSetCaheElement S) (xs : ZSetCacheElementSet S) :
    totalCost sz (e :: xs) = elementCost sz e + entryCost sz e.value + totalCost sz xs := by
  simp [totalCost]

theorem totalCost_perm (sz : Sizeof) {xs ys : ZSetCacheElementSet S} (h : xs.Perm ys) :
    totalCost sz xs = totalCost sz ys :=
  (h.map _).sum_eq

variable [DoubleScore S]

theorem totalCost_erase (sz : Sizeof) {xs : ZSetCacheElementSet S} {x : ZSetCaheElement S}
    (h : x ∈ xs) :
    totalCost sz xs = elementCost sz x + entryCost sz x.value + totalCost sz (xs.erase x) := by
  rw [← totalCost_cons]
  exact totalCost_perm sz (List.perm_cons_erase h)

/-- In a strictly ascending index whose scores agree with the map, a member is stored
in one element only. -/
theorem unique_of_value {xs : ZSetCacheElementSet S} {d : ZSetCacheScoreMap S}
    (hs : Ascending xs) (hd : ∀ e ∈ xs, dictFind d e.value = some e.score)
    {a b : ZSetCaheElement S} (ha : a ∈ xs) (hb : b ∈ xs) (hv : a.value = b.value) :
    a = b := by
  by_contra hne
  have hsc : a.score = b.score := by
    have h1 := hd a ha
    have h2 := hd b hb
    rw [hv, h2] at h1
    exact (Option.some.inj h1).symm
  have hsym : Symmetric (fun x y : ZSetCaheElement S => x.lt y = true ∨ y.lt x = true) :=
    fun _ _ h => h.symm
  have hp : xs.Pairwise (fun x y => x.lt y = true ∨ y.lt x = true) :=
    List.Pairwise.imp (fun h => Or.inl h) hs
  rcases hp.forall hsym ha hb hne with h | h
  · rw [elemLt_of_equiv hsc hv] at h
    exact Bool.noConfusion h
  · rw [elemLt_of_equiv hsc.symm hv.symm] at h
    exact Bool.noConfusion h

theorem Inv.unique {sz : Sizeof} {c : ZSetCache S} (h : Inv sz c) {a b : ZSetCaheElement S}
    (ha : a ∈ c.m_cache) (hb : b ∈ c.m_cache) (hv : a.value = b.value) : a = b :=
  unique_of_value h.ascending h.dict_of_mem ha hb hv

theorem Inv.absent {sz : Sizeof} {c : ZSetCache S} (h : Inv sz c) {m : Bytes}
    (hm : dictFind c.m_cache_score_dict m = none) : ∀ x ∈ c.m_cache, x.value ≠ m := by
  intro x hx hv
  have := h.dict_of_mem x hx
  rw [hv, hm] at this
  exact Option.noConfusion this

theorem inv_new (sz : Sizeof) : Inv sz (ZSetCache.new sz : ZSetCache S) where
  ascending := List.Pairwise.nil
  dict_of_mem := fun e he => by cases he
  mem_of_dict := fun m sc h => by simp [ZSetCache.new, dictFind] at h
  acct := by simp [ZSetCache.new, totalCost]

/-- Storing a member that no element of the index has keeps the invariant. -/
theorem inv_insert {sz : Sizeof} {xs : ZSetCacheElementSet S} {d : ZSetCacheScoreMap S}
    {n : Nat} (e : ZSetCaheElement S) (hs : Ascending xs)
    (hd : ∀ y ∈ xs, dictFind d y.value = some y.score)
    (hm : ∀ m sc, m ≠ e.value → dictFind d m = some sc → ∃ y ∈ xs, y.value = m ∧ y.score = sc)
    (hfresh : ∀ y ∈ xs, y.value ≠ e.value)
    (hn : n = u32 (sz.sizeofZSetCache + (elementCost sz e + entryCost sz e.value +
      totalCost sz xs))) :
    Inv sz { m_cache := setInsert xs e, m_cache_score_dict := dictSet d e.value e.score,
             m_estimate_mem_size := n } := by
  have hperm := setInsert_perm hfresh
  refine ⟨setInsert_ascending hs e, ?_, ?_, ?_⟩
  · intro y hy
    rcases List.mem_cons.mp (hperm.mem_iff.mp hy) with hy | hy
    · rw [hy]; exact dictFind_dictSet_same _ _ _
    · show dictFind (dictSet d e.value e.score) y.value = some y.score
      rw [dictFind_dictSet_other d e.score (hfresh y hy)]
      exact hd y hy
  · intro m sc h
    have h : dictFind (dictSet d e.value e.score) m = some sc := h
    by_cases hme : m = e.value
    · rw [hme, dictFind_dictSet_same] at h
      exact ⟨e, hperm.mem_iff.mpr (List.mem_cons_self _ _), hme.symm, Option.some.inj h⟩
    · rw [dictFind_dictSet_other d e.score hme] at h
      obtain ⟨y, hy, hy2⟩ := hm m sc hme h
      exact ⟨y, hperm.mem_iff.mpr (List.mem_cons_of_mem _ hy), hy2⟩
  · show n = u32 (sz.sizeofZSetCache + totalCost sz (setInsert xs e))
    rw [totalCost_perm sz hperm, totalCost_cons]
    exact hn

theorem inv_Add (sz : Sizeof) {c : ZSetCache S} (h : Inv sz c) (score : S)
    (value attr : Bytes) (ts : Bool) : Inv sz (c.Add sz score value attr ts).2 := by
  cases hf : dictFind c.m_cache_score_dict value with
  | none =>
    rw [Add_new sz score attr ts hf]
    refine inv_insert { score := score, value := value, attr := attr } h.ascending
      h.dict_of_mem (fun m sc _ hm => h.mem_of_dict m sc hm) (h.absent hf) ?_
    show u32 (c.m_estimate_mem_size + _) = _
    rw [h.acct, u32_add_left]
    congr 1
    show _ = _ + (_ + entryCost sz value + _)
    omega
  | some sit =>
    by_cases hsc : doubleEq sit score = true
    · rw [Add_same sz attr ts hf hsc]
      exact h
    · have hsc : doubleEq sit score = false := by simpa using hsc
      obtain ⟨x, hx, hxv, hxs⟩ := h.mem_of_dict value sit hf
      subst hxv
      subst hxs
      rw [Add_changed sz h.ascending hx hf hsc attr ts]
      have hmem : ∀ y, y ∈ c.m_cache.erase x ↔ y ≠ x ∧ y ∈ c.m_cache :=
        fun y => h.ascending.nodup.mem_erase_iff
      refine inv_insert { score := score, value := x.value, attr := attr }
        (h.ascending.erase x) (fun y hy => h.dict_of_mem y ((hmem y).mp hy).2) ?_ ?_ ?_
      · intro m sc hmx hm
        obtain ⟨y, hy, hyv, hys⟩ := h.mem_of_dict m sc hm
        refine ⟨y, (hmem y).mpr ⟨?_, hy⟩, hyv, hys⟩
        intro hyx
        exact hmx (by rw [← hyv, hyx])
      · intro y hy hv
        exact ((hmem y).mp hy).1 (h.unique ((hmem y).mp hy).2 hx hv)
      · show u32 (u32 (c.m_estimate_mem_size + _) + _) = _
        rw [h.acct, totalCost_erase sz hx]
        simp only [u32, elementCost, entryCost]
        omega

theorem inv_Rem (sz : Sizeof) {c : ZSetCache S} (h : Inv sz c) (v : Bytes) :
    Inv sz (c.Rem sz v).2 := by
  cases hf : dictFind c.m_cache_score_dict v with
  | none =>
    rw [Rem_absent sz hf]
    exact h
  | some sit =>
    obtain ⟨x, hx, hxv, hxs⟩ := h.mem_of_dict v sit hf
    subst hxv
    subst hxs
    rw [Rem_present sz h.ascending hx hf]
    have hmem : ∀ y, y ∈ c.m_cache.erase x ↔ y ≠ x ∧ y ∈ c.m_cache :=
      fun y => h.ascending.nodup.mem_erase_iff
    refine ⟨h.ascending.erase x, ?_, ?_, ?_⟩
    · intro y hy
      have hy2 := (hmem y).mp hy
      have hne : y.value ≠ x.value := fun hv => hy2.1 (h.unique hy2.2 hx hv)
      show dictFind (dictErase c.m_cache_score_dict x.value) y.value = some y.score
      rw [dictFind_dictErase_other _ hne]
      exact h.dict_of_mem y hy2.2
    · intro m sc hm
      have hm : dictFind (dictErase c.m_cache_score_dict x.value) m = some sc := hm
      have hne : m ≠ x.value := by
        intro e
        rw [e, dictFind_dictErase_same] at hm
        exact Option.noConfusion hm
      rw [dictFind_dictErase_other _ hne] at hm
      obtain ⟨y, hy, hyv, hys⟩ := h.mem_of_dict m sc hm
      refine ⟨y, (hmem y).mpr ⟨?_, hy⟩, hyv, hys⟩
      intro hyx
      exact hne (by rw [← hyv, hyx])
    · show u32 (u32 (c.m_estimate_mem_size + _) + _) = _
      rw [h.acct, totalCost_erase sz hx]
      simp only [u32, elementCost, entryCost]
      omega

theorem inv_step (sz : Sizeof) {c : ZSetCache S} (h : Inv sz c) (op : Op S) :
    Inv sz (step sz c op) := by
  cases op with
  | add score member attr ts => exact inv_Add sz h score member attr ts
  | rem member => exact inv_Rem sz h member

theorem inv_foldl (sz : Sizeof) (ops : List (Op S)) {c : ZSetCache S} (h : Inv sz c) :
    Inv sz (ops.foldl (step sz) c) := by
  induction ops generalizing c with
  | nil => exact h
  | cons op r ih => exact ih (inv_step sz h op)

/-- Every state reached from the empty cache satisfies the invariant. -/
theorem inv_run (sz : Sizeof) (ops : List (Op S)) : Inv sz (run sz ops) :=
  inv_foldl sz ops (inv_new sz)

end Invariant

/-! ## The range scan -/

section RangeLemmas

variable {S : Type} [DoubleScore S]

theorem Ascending.scoreSorted {xs : ZSetCacheElementSet S} (h : Ascending xs) :
    ScoreSorted xs := by
  refine List.Pairwise.imp ?_ h
  intro a b hab
  rcases (elemLt_iff a b).mp hab with h1 | h1
  · exact le_of_lt h1
  · exact le_of_eq h1.1

omit [DoubleScore S] in
theorem emittedMembers_scanLoop (ws wa : Bool) (max_it : Nat) (l : ZSetCacheElementSet S)
    (min_it cursor : Nat) :
    emittedMembers (ZSetCache.scanLoop ws wa max_it l min_it cursor) =
      (scanElems max_it l min_it).map (fun e => e.value) := by
  induction l generalizing min_it cursor with
  | nil => simp [ZSetCache.scanLoop, scanElems, emittedMembers]
  | cons e r ih =>
    unfold ZSetCache.scanLoop scanElems
    by_cases h : min_it = max_it
    · simp [h, emittedMembers]
    · simp only [ne_eq, h, not_false_eq_true, if_true, List.map_cons]
      have ih2 := ih (min_it + 1)
      unfold emittedMembers at ih2 ⊢
      cases ws <;> cases wa <;> simp [List.filterMap_append, List.filterMap_cons, ih2]

omit [DoubleScore S] in
theorem scanElems_eq (max_it : Nat) (l : ZSetCacheElementSet S) (min_it : Nat) :
    scanElems max_it l min_it = if min_it ≤ max_it then l.take (max_it - min_it) else l := by
  induction l generalizing min_it with
  | nil => simp [scanElems]
  | cons e r ih =>
    unfold scanElems
    by_cases h : min_it = max_it
    · simp [h]
    · rw [if_pos h, ih]
      by_cases h2 : min_it ≤ max_it
      · have h3 : min_it + 1 ≤ max_it := by omega
        have h4 : max_it - min_it = (max_it - (min_it + 1)) + 1 := by omega
        rw [if_pos h2, if_pos h3, h4, List.take_succ_cons]
      · have h3 : ¬ min_it + 1 ≤ max_it := by omega
        rw [if_neg h2, if_neg h3]

theorem skipScore_eq (flag : Bool) (x : S) (l : ZSetCacheElementSet S) (it : Nat) :
    ZSetCache.skipScore flag x l it =
      it + (l.takeWhile (fun e => flag && decide (e.score = x))).length := by
  induction l generalizing it with
  | nil => simp [ZSetCache.skipScore]
  | cons e r ih =>
    unfold ZSetCache.skipScore
    by_cases h : flag = true ∧ e.score = x
    · rw [if_pos h, ih]
      simp [List.takeWhile_cons, h.1, h.2]
      omega
    · rw [if_neg h]
      have : (flag && decide (e.score = x)) = false := by
        cases flag <;> simp at h ⊢
        exact h
      simp [List.takeWhile_cons, this]

theorem lower_bound_eq (xs : ZSetCacheElementSet S) (x : S) (a : Bytes) :
    lower_bound xs { score := x, value := [], attr := a } =
      (xs.takeWhile (fun e => decide (e.score < x))).length := by
  induction xs with
  | nil => simp [lower_bound]
  | cons e r ih =>
    unfold lower_bound
    by_cases h : e.score < x
    · rw [if_pos ((elemLt_probe e x a).mpr h), ih]
      simp [List.takeWhile_cons, h]
    · have h2 : ¬ e.lt { score := x, value := [], attr := a } = true :=
        fun h3 => h ((elemLt_probe e x a).mp h3)
      rw [if_neg h2]
      simp [List.takeWhile_cons, h]

theorem drop_lower_bound (xs : ZSetCacheElementSet S) (x : S) (a : Bytes) :
    xs.drop (lower_bound xs { score := x, value := [], attr := a }) =
      xs.dropWhile (fun e => decide (e.score < x)) := by
  induction xs with
  | nil => simp [lower_bound]
  | cons e r ih =>
    unfold lower_bound
    by_cases h : e.score < x
    · rw [if_pos ((elemLt_probe e x a).mpr h)]
      simp [List.dropWhile_cons, h, ih]
    · have h2 : ¬ e.lt { score := x, value := [], attr := a } = true :=
        fun h3 => h ((elemLt_probe e x a).mp h3)
      rw [if_neg h2]
      simp [List.dropWhile_cons, h]

omit [DoubleScore S] in
theorem takeWhile_congr_mem {α : Type} {p q : α → Bool} {l : List α}
    (h : ∀ a ∈ l, p a = q a) : l.takeWhile p = l.takeWhile q := by
  induction l with
  | nil => rfl
  | cons a r ih =>
    rw [List.takeWhile_cons, List.takeWhile_cons, h a (List.mem_cons_self _ _),
      ih fun b hb => h b (List.mem_cons_of_mem _ hb)]

/-- The position reached from the probe of score `x`, after the adjustment loop, is the
number of leading elements that lie before the mark. -/
theorem probe_pos {xs : ZSetCacheElementSet S} (hs : ScoreSorted xs) (flag : Bool) (x : S)
    (a : Bytes) :
    ZSetCache.skipScore flag x
        (xs.drop (lower_bound xs { score := x, value := [], attr := a }))
        (lower_bound xs { score := x, value := [], attr := a }) =
      (xs.takeWhile (beforeMark flag x)).length := by
  rw [skipScore_eq, drop_lower_bound, lower_bound_eq]
  induction xs with
  | nil => simp
  | cons e r ih =>
    have he := (List.pairwise_cons.mp hs).1
    have hr := (List.pairwise_cons.mp hs).2
    by_cases h : e.score < x
    · have hb : beforeMark flag x e = true := by simp [beforeMark, h]
      simp only [List.takeWhile_cons, List.dropWhile_cons, h, decide_True, if_true, hb,
        List.length_cons]
      have := ih hr
      omega
    · have hge : ∀ y ∈ e :: r, ¬ y.score < x := by
        intro y hy hlt
        rcases List.mem_cons.mp hy with hy | hy
        · exact h (hy ▸ hlt)
        · exact h (lt_of_le_of_lt (he y hy) hlt)
      have hcongr : (e :: r).takeWhile (beforeMark flag x) =
          (e :: r).takeWhile (fun e => flag && decide (e.score = x)) :=
        takeWhile_congr_mem fun y hy => by simp [beforeMark, hge y hy]
      rw [hcongr]
      simp [List.takeWhile_cons, List.dropWhile_cons, h]

theorem beforeMark_down (flag : Bool) (x : S) {a b : ZSetCaheElement S}
    (hab : a.score ≤ b.score) (hb : beforeMark flag x b = true) :
    beforeMark flag x a = true := by
  unfold beforeMark at hb ⊢
  by_cases h : a.score < x
  · simp [h]
  · have hxa : x ≤ a.score := not_lt.mp h
    have hnb : ¬ b.score < x := fun hlt => h (lt_of_le_of_lt hab hlt)
    simp only [hnb, decide_False, Bool.false_or, Bool.and_eq_true, decide_eq_true_eq] at hb
    have : a.score = x := le_antisymm (hb.2 ▸ hab) hxa
    simp [hb.1, this]

theorem takeWhile_eq_filter {xs : ZSetCacheElementSet S} (hs : ScoreSorted xs)
    {p : ZSetCaheElement S → Bool}
    (hp : ∀ a b : ZSetCaheElement S, a.score ≤ b.score → p b = true → p a = true) :
    xs.takeWhile p = xs.filter p := by
  induction xs with
  | nil => rfl
  | cons e r ih =>
    have he := (List.pairwise_cons.mp hs).1
    have hr := (List.pairwise_cons.mp hs).2
    by_cases h : p e = true
    · simp [List.takeWhile_cons, List.filter_cons, h, ih hr]
    · have hnone : ∀ y ∈ r, ¬ p y = true := fun y hy hy2 => h (hp e y (he y hy) hy2)
      have : r.filter p = [] := List.filter_eq_nil_iff.mpr hnone
      simp [List.takeWhile_cons, List.filter_cons, h, this]

omit [DoubleScore S] in
theorem take_length_takeWhile {α : Type} (p : α → Bool) (l : List α) :
    l.take (l.takeWhile p).length = l.takeWhile p := by
  induction l with
  | nil => rfl
  | cons a r ih =>
    by_cases h : p a = true
    · simp [List.takeWhile_cons, h, ih]
    · simp [List.takeWhile_cons, h]

omit [DoubleScore S] in
theorem length_takeWhile_mono {α : Type} {p q : α → Bool} (hpq : ∀ a, p a = true → q a = true)
    (l : List α) : (l.takeWhile p).length ≤ (l.takeWhile q).length := by
  induction l with
  | nil => simp
  | cons a r ih =>
    by_cases h : p a = true
    · simp [List.takeWhile_cons, h, hpq a h, ih]
    · simp [List.takeWhile_cons, h]

/-- Between the two marks of a well placed pair lie exactly the elements that are past
the first mark and before the second. -/
theorem window_eq_filter {xs : ZSetCacheElementSet S} (hs : ScoreSorted xs)
    {p q : ZSetCaheElement S → Bool}
    (hp : ∀ a b : ZSetCaheElement S, a.score ≤ b.score → p b = true → p a = true)
    (hq : ∀ a b : ZSetCaheElement S, a.score ≤ b.score → q b = true → q a = true)
    (hpq : ∀ a, p a = true → q a = true) :
    (xs.drop (xs.takeWhile p).length).take
        ((xs.takeWhile q).length - (xs.takeWhile p).length) =
      xs.filter (fun e => !p e && q e) := by
  induction xs with
  | nil => rfl
  | cons e r ih =>
    have he := (List.pairwise_cons.mp hs).1
    have hr := (List.pairwise_cons.mp hs).2
    by_cases h : p e = true
    · have h2 := hpq e h
      simp only [List.takeWhile_cons, h, h2, if_true, List.length_cons, List.drop_succ_cons,
        Nat.add_sub_add_right, List.filter_cons, Bool.not_true, Bool.false_and,
        Bool.false_eq_true, if_false]
      exact ih hr
    · have hnone : ∀ y ∈ e :: r, p y = false := by
        intro y hy
        rcases List.mem_cons.mp hy with hy | hy
        · rw [hy]; simpa using h
        · cases hpy : p y
          · rfl
          · exact absurd (hp e y (he y hy) hpy) h
      have hf : (e :: r).filter (fun e => !p e && q e) = (e :: r).filter q :=
        List.filter_congr fun y hy => by simp [hnone y hy]
      rw [hf, ← takeWhile_eq_filter hs hq]
      have h0 : ((e :: r).takeWhile p).length = 0 := by simp [List.takeWhile_cons, h]
      rw [h0, List.drop_zero, Nat.sub_zero, take_length_takeWhile]

theorem lower_bound_end {xs : ZSetCacheElementSet S} {x : S} {a : Bytes}
    (h : lower_bound xs { score := x, value := [], attr := a } = xs.length) :
    ∀ e ∈ xs, e.score < x := by
  induction xs with
  | nil => intro e he; cases he
  | cons y r ih =>
    unfold lower_bound at h
    by_cases hy : y.lt { score := x, value := [], attr := a } = true
    · rw [if_pos hy] at h
      intro e he
      rcases List.mem_cons.mp he with he | he
      · rw [he]; exact (elemLt_probe y x a).mp hy
      · exact ih (by simpa using h) e he
    · rw [if_neg hy] at h
      simp at h

theorem beforeMark_iff (flag : Bool) (x : S) (e : ZSetCaheElement S) :
    beforeMark flag x e = true ↔ e.score < x ∨ (flag = true ∧ e.score = x) := by
  unfold beforeMark
  simp only [Bool.or_eq_true, Bool.and_eq_true, decide_eq_true_eq]

theorem contains_iff (range : ZRangeSpec S) (s : S) :
    range.contains s = true ↔
      (if range.contain_min = true then range.min ≤ s else range.min < s) ∧
        (if range.contain_max = true then s ≤ range.max else s < range.max) := by
  unfold ZRangeSpec.contains
  cases range.contain_min <;> cases range.contain_max <;>
    simp only [Bool.and_eq_true, decide_eq_true_eq, if_true, if_false, Bool.false_eq_true]

theorem contains_eq_marks (range : ZRangeSpec S) (e : ZSetCaheElement S) :
    (!beforeMark (!range.contain_min) range.min e && beforeMark range.contain_max range.max e) =
      range.contains e.score := by
  rw [Bool.eq_iff_iff, Bool.and_eq_true, Bool.not_eq_true_eq_eq_false, ← Bool.not_eq_true,
    beforeMark_iff, beforeMark_iff, contains_iff]
  have hlo : ¬ (e.score < range.min ∨ ((!range.contain_min) = true ∧ e.score = range.min)) ↔
      (if range.contain_min = true then range.min ≤ e.score else range.min < e.score) := by
    cases range.contain_min
    · simp only [Bool.not_false, true_and, Bool.false_eq_true, if_false]
      rw [← le_iff_lt_or_eq, not_le]
    · simp only [Bool.not_true, Bool.false_eq_true, false_and, or_false, if_true, not_lt]
  have hhi : (e.score < range.max ∨ (range.contain_max = true ∧ e.score = range.max)) ↔
      (if range.contain_max = true then e.score ≤ range.max else e.score < range.max) := by
    cases range.contain_max
    · simp only [Bool.false_eq_true, false_and, or_false, if_false]
    · simp only [true_and, if_true]
      rw [← le_iff_lt_or_eq]
  rw [hlo, hhi]

theorem marks_of_wellFormed {range : ZRangeSpec S} (hw : range.wellFormed)
    (e : ZSetCaheElement S) (h : beforeMark (!range.contain_min) range.min e = true) :
    beforeMark range.contain_max range.max e = true := by
  unfold beforeMark at h ⊢
  simp only [Bool.or_eq_true, Bool.and_eq_true, decide_eq_true_eq, Bool.not_eq_true_eq_eq_false]
    at h ⊢
  rcases hw with hw | ⟨hw1, hw2⟩
  · left
    rcases h with h | ⟨_, h⟩
    · exact lt_trans h hw
    · rw [h]; exact hw
  · rcases h with h | ⟨h1, h⟩
    · left; rw [← hw1]; exact h
    · right
      rcases hw2 with hw2 | hw2
      · rw [hw2] at h1; exact absurd h1 (by simp)
      · exact ⟨hw2, h.trans hw1⟩

end RangeLemmas

/-! ## Consequences used by the main theorems -/

section Consequences

variable {S : Type} [DoubleScore S]

theorem EraseElement_dict (sz : Sizeof) (c : ZSetCache S) (e : ZSetCaheElement S) :
    (c.EraseElement sz e).m_cache_score_dict = c.m_cache_score_dict := by
  unfold ZSetCache.EraseElement
  cases setFind c.m_cache e <;> rfl

/-- The member to score index after `Add`, on any state. -/
theorem dictFind_Add (sz : Sizeof) (c : ZSetCache S) (score : S) (value attr : Bytes)
    (ts : Bool) (m : Bytes) :
    dictFind (c.Add sz score value attr ts).2.m_cache_score_dict m =
      if m = value then some score else dictFind c.m_cache_score_dict m := by
  by_cases hm : m = value
  · rw [if_pos hm, hm]
    unfold ZSetCache.Add
    cases hf : dictFind c.m_cache_score_dict value with
    | none => simp [ZSetCache.AddEstimateMemSize, dictFind_dictSet_same]
    | some sit =>
      by_cases hsc : doubleEq sit score = true
      · have he := ((doubleEq_iff sit score).mp hsc).1
        subst he
        simp [hsc, hf]
      · simp [hsc, ZSetCache.AddEstimateMemSize, dictFind_dictSet_same]
  · rw [if_neg hm]
    unfold ZSetCache.Add
    cases hf : dictFind c.m_cache_score_dict value with
    | none => simp [ZSetCache.AddEstimateMemSize, dictFind_dictSet_other _ _ hm]
    | some sit =>
      by_cases hsc : doubleEq sit score = true
      · simp [hsc]
      · simp [hsc, ZSetCache.AddEstimateMemSize, dictFind_dictSet_other _ _ hm,
          EraseElement_dict]

/-- The member to score index after `Rem`, on any state. -/
theorem dictFind_Rem (sz : Sizeof) (c : ZSetCache S) (v m : Bytes) :
    dictFind (c.Rem sz v).2.m_cache_score_dict m =
      if m = v then none else dictFind c.m_cache_score_dict m := by
  unfold ZSetCache.Rem
  cases hf : dictFind c.m_cache_score_dict v with
  | none =>
    by_cases hm : m = v
    · simp [hm, hf]
    · simp [hm]
  | some sit =>
    by_cases hm : m = v
    · simp [hm, ZSetCache.SubEstimateMemSize, dictFind_dictErase_same]
    · simp [hm, ZSetCache.SubEstimateMemSize, dictFind_dictErase_other _ hm,
        EraseElement_dict]

/-- The outcome code of `Add`, on any state. -/
theorem Add_result (sz : Sizeof) (c : ZSetCache S) (score : S) (value attr : Bytes)
    (ts : Bool) :
    (c.Add sz score value attr ts).1 =
      match dictFind c.m_cache_score_dict value with
      | none => AddResult.ZSET_CACHE_NEW_ELEMENT
      | some sit =>
        if doubleEq sit score = true then AddResult.ZSET_CACHE_NONEW_ELEMENT
        else AddResult.ZSET_CACHE_SCORE_CHANGED := by
  unfold ZSetCache.Add
  cases hf : dictFind c.m_cache_score_dict value with
  | none => rfl
  | some sit =>
    by_cases hsc : doubleEq sit score = true
    · simp [hsc]
    · simp [hsc]

/-- The ordering index after `Add`, away from the member that was added. -/
theorem mem_Add_other (sz : Sizeof) {c : ZSetCache S} (h : Inv sz c) (score : S)
    (value attr : Bytes) (ts : Bool) {e : ZSetCaheElement S} (he : e.value ≠ value) :
    e ∈ (c.Add sz score value attr ts).2.m_cache ↔ e ∈ c.m_cache := by
  have hne : e ≠ { score := score, value := value, attr := attr } := fun h2 => he (by rw [h2])
  cases hf : dictFind c.m_cache_score_dict value with
  | none =>
    rw [Add_new sz score attr ts hf]
    show e ∈ setInsert c.m_cache _ ↔ _
    rw [(setInsert_perm (h.absent hf)).mem_iff, List.mem_cons]
    exact ⟨fun h2 => h2.resolve_left hne, Or.inr⟩
  | some sit =>
    by_cases hsc : doubleEq sit score = true
    · rw [Add_same sz attr ts hf hsc]
    · have hsc : doubleEq sit score = false := by simpa using hsc
      obtain ⟨x, hx, hxv, hxs⟩ := h.mem_of_dict value sit hf
      subst hxv
      subst hxs
      rw [Add_changed sz h.ascending hx hf hsc attr ts]
      have hmem : ∀ y, y ∈ c.m_cache.erase x ↔ y ≠ x ∧ y ∈ c.m_cache :=
        fun y => h.ascending.nodup.mem_erase_iff
      have hfresh : ∀ y ∈ c.m_cache.erase x,
          y.value ≠ ({ score := score, value := x.value, attr := attr } :
            ZSetCaheElement S).value :=
        fun y hy hv => ((hmem y).mp hy).1 (h.unique ((hmem y).mp hy).2 hx hv)
      show e ∈ setInsert (c.m_cache.erase x) _ ↔ _
      rw [(setInsert_perm hfresh).mem_iff, List.mem_cons, hmem]
      constructor
      · intro h2
        exact (h2.resolve_left hne).2
      · intro h2
        exact Or.inr ⟨fun h3 => he (by rw [h3]), h2⟩

/-- The ordering index after `Rem` of a stored member. -/
theorem mem_Rem (sz : Sizeof) {c : ZSetCache S} (h : Inv sz c) {x : ZSetCaheElement S}
    (hx : x ∈ c.m_cache) (e : ZSetCaheElement S) :
    e ∈ (c.Rem sz x.value).2.m_cache ↔ e.value ≠ x.value ∧ e ∈ c.m_cache := by
  rw [Rem_present sz h.ascending hx (h.dict_of_mem x hx)]
  show e ∈ c.m_cache.erase x ↔ _
  rw [h.ascending.nodup.mem_erase_iff]
  constructor
  · intro h2
    exact ⟨fun hv => h2.1 (h.unique h2.2 hx hv), h2.2⟩
  · intro h2
    exact ⟨fun h3 => h2.1 (by rw [h3]), h2.2⟩

theorem Inv.nodup_values {sz : Sizeof} {c : ZSetCache S} (h : Inv sz c) :
    (c.m_cache.map (fun e => e.value)).Nodup :=
  List.Nodup.map_on (fun _ ha _ hb hv => h.unique ha hb hv) h.ascending.nodup

theorem inv_remAll (sz : Sizeof) (ms : List Bytes) {c : ZSetCache S} (h : Inv sz c) :
    Inv sz (remAll sz ms c) := by
  induction ms generalizing c with
  | nil => exact h
  | cons m r ih => exact ih (inv_Rem sz h m)

theorem dictFind_remAll (sz : Sizeof) (ms : List Bytes) (c : ZSetCache S) (m : Bytes) :
    dictFind (remAll sz ms c).m_cache_score_dict m =
      if m ∈ ms then none else dictFind c.m_cache_score_dict m := by
  induction ms generalizing c with
  | nil => simp [remAll]
  | cons v r ih =>
    show dictFind (remAll sz r (c.Rem sz v).2).m_cache_score_dict m = _
    rw [ih, dictFind_Rem]
    by_cases h1 : m ∈ r
    · simp [h1]
    · by_cases h2 : m = v
      · simp [h2]
      · simp [h1, h2]

theorem wellFormed_of_contains {range : ZRangeSpec S} {s : S}
    (h : range.contains s = true) : range.wellFormed := by
  rw [contains_iff] at h
  obtain ⟨h1, h2⟩ := h
  unfold ZRangeSpec.wellFormed
  have hle1 : range.min ≤ s := by
    by_cases hc : range.contain_min = true
    · rw [if_pos hc] at h1; exact h1
    · rw [if_neg hc] at h1; exact le_of_lt h1
  have hle2 : s ≤ range.max := by
    by_cases hc : range.contain_max = true
    · rw [if_pos hc] at h2; exact h2
    · rw [if_neg hc] at h2; exact le_of_lt h2
  rcases lt_or_eq_of_le (le_trans hle1 hle2) with hlt | heq
  · exact Or.inl hlt
  · refine Or.inr ⟨heq, ?_⟩
    by_cases hc : range.contain_min = true
    · exact Or.inl hc
    · rw [if_neg hc] at h1
      have : s < s := lt_of_le_of_lt (heq ▸ hle2) h1
      exact absurd this (lt_irrefl s)

end Consequences

/-! ## The visited elements and the emission protocol -/

section Protocol

variable {S : Type} [DoubleScore S]

omit [DoubleScore S] in
theorem scanLoop_eq_enumFrom (ws wa : Bool) (max_it : Nat) (l : ZSetCacheElementSet S)
    (min_it cursor : Nat) :
    ZSetCache.scanLoop ws wa max_it l min_it cursor =
      (((scanElems max_it l min_it).map (elementValues ws wa)).flatten.enumFrom cursor).map
        (fun p => (p.2, p.1)) := by
  induction l generalizing min_it cursor with
  | nil => simp [ZSetCache.scanLoop, scanElems]
  | cons e r ih =>
    unfold ZSetCache.scanLoop scanElems
    by_cases h : min_it = max_it
    · simp [h]
    · simp only [ne_eq, h, not_false_eq_true, if_true, List.map_cons, List.flatten_cons,
        List.enumFrom_append, List.map_append]
      rw [ih]
      cases ws <;> cases wa <;> simp [elementValues]

/-- The invocations made by `GetRange` are those the protocol prescribes for the visited
elements. -/
theorem GetRange_eq_protocol (c : ZSetCache S) (range : ZRangeSpec S) (ws wa : Bool) :
    c.GetRange range ws wa = protocolCalls ws wa (c.visited range) := by
  unfold ZSetCache.GetRange ZSetCache.visited protocolCalls
  simp only []
  split_ifs with hg
  · rw [scanLoop_eq_enumFrom]
    rfl
  · rfl

theorem emittedMembers_eq_visited (c : ZSetCache S) (range : ZRangeSpec S) (ws wa : Bool) :
    emittedMembers (c.GetRange range ws wa) = (c.visited range).map (fun e => e.value) := by
  unfold ZSetCache.GetRange ZSetCache.visited
  simp only []
  split_ifs with hg
  · rw [emittedMembers_scanLoop]
  · rfl

/-- The visited elements form a contiguous part of the ordering index. -/
theorem visited_sublist (c : ZSetCache S) (range : ZRangeSpec S) :
    (c.visited range).Sublist c.m_cache := by
  unfold ZSetCache.visited
  simp only []
  split_ifs with hg
  · rw [scanElems_eq]
    split_ifs with hle
    · exact (List.take_sublist _ _).trans (List.drop_sublist _ _)
    · exact List.drop_sublist _ _
  · exact List.nil_sublist _

/-- The visited elements in terms of the two marks. -/
theorem visited_eq {c : ZSetCache S} (hs : ScoreSorted c.m_cache) (range : ZRangeSpec S) :
    c.visited range =
      if lower_bound c.m_cache { score := range.min, value := [], attr := [] } ≠
          c.m_cache.length then
        scanElems (c.m_cache.takeWhile (beforeMark range.contain_max range.max)).length
          (c.m_cache.drop (c.m_cache.takeWhile
            (beforeMark (!range.contain_min) range.min)).length)
          (c.m_cache.takeWhile (beforeMark (!range.contain_min) range.min)).length
      else [] := by
  unfold ZSetCache.visited
  simp only []
  split_ifs with hg
  · rw [probe_pos hs, probe_pos hs]
  · rfl

theorem not_contains_of_lt_min (range : ZRangeSpec S) {s : S} (h : s < range.min) :
    range.contains s = false := by
  rw [← Bool.not_eq_true, contains_iff]
  intro h2
  by_cases hc : range.contain_min = true
  · rw [if_pos hc] at h2; exact absurd (lt_of_lt_of_le h h2.1) (lt_irrefl s)
  · rw [if_neg hc] at h2; exact absurd (lt_trans h h2.1) (lt_irrefl s)

/-- On a well formed interval the visited elements are exactly the elements whose score
lies in the interval, in index order. -/
theorem visited_wellFormed {c : ZSetCache S} (hs : Ascending c.m_cache)
    {range : ZRangeSpec S} (hw : range.wellFormed) :
    c.visited range = c.m_cache.filter (fun e => range.contains e.score) := by
  rw [visited_eq hs.scoreSorted]
  split_ifs with hg
  · rw [scanElems_eq,
      if_pos (length_takeWhile_mono (marks_of_wellFormed hw) c.m_cache),
      window_eq_filter hs.scoreSorted (fun _ _ => beforeMark_down _ _)
        (fun _ _ => beforeMark_down _ _) (marks_of_wellFormed hw)]
    exact List.filter_congr fun e _ => contains_eq_marks range e
  · have hall := lower_bound_end (not_not.mp hg)
    symm
    rw [List.filter_eq_nil_iff]
    intro e he
    rw [not_contains_of_lt_min range (hall e he)]
    exact Bool.false_ne_true

omit [DoubleScore S] in
theorem length_filter_lt {p q : ZSetCaheElement S → Bool}
    (hpq : ∀ a, p a = true → q a = true) {xs : ZSetCacheElementSet S}
    {e : ZSetCaheElement S} (he : e ∈ xs) (hqe : q e = true) (hpe : p e = false) :
    (xs.filter p).length < (xs.filter q).length := by
  have hmono : ∀ l : ZSetCacheElementSet S, (l.filter p).length ≤ (l.filter q).length := by
    intro l
    induction l with
    | nil => simp
    | cons y r ih =>
      by_cases hy : p y = true
      · simp [List.filter_cons, hy, hpq y hy, ih]
      · by_cases hy2 : q y = true
        · simp only [List.filter_cons, hy, hy2, if_true, if_false, List.length_cons,
            Bool.false_eq_true]
          omega
        · simp [List.filter_cons, hy, hy2, ih]
  induction xs with
  | nil => cases he
  | cons y r ih =>
    rcases List.mem_cons.mp he with h | h
    · subst h
      have := hmono r
      simp only [List.filter_cons, hpe, hqe, if_true, List.length_cons, Bool.false_eq_true,
        if_false]
      omega
    · have := ih h
      by_cases hy : p y = true
      · simp [List.filter_cons, hy, hpq y hy, this]
      · by_cases hy2 : q y = true
        · simp only [List.filter_cons, hy, hy2, if_true, if_false, List.length_cons,
            Bool.false_eq_true]
          omega
        · simp [List.filter_cons, hy, hy2, this]

theorem drop_takeWhile_eq_filter {xs : ZSetCacheElementSet S} (hs : ScoreSorted xs)
    {p : ZSetCaheElement S → Bool}
    (hp : ∀ a b : ZSetCaheElement S, a.score ≤ b.score → p b = true → p a = true) :
    xs.drop (xs.takeWhile p).length = xs.filter (fun e => !p e) := by
  induction xs with
  | nil => rfl
  | cons e r ih =>
    have he := (List.pairwise_cons.mp hs).1
    have hr := (List.pairwise_cons.mp hs).2
    by_cases h : p e = true
    · simp [List.takeWhile_cons, List.filter_cons, h, ih hr]
    · have hall : ∀ y ∈ e :: r, (!p y) = true := by
        intro y hy
        rcases List.mem_cons.mp hy with hy | hy
        · rw [hy]; simpa using h
        · cases hpy : p y
          · rfl
          · exact absurd (hp e y (he y hy) hpy) h
      rw [List.filter_eq_self.mpr hall]
      simp [List.takeWhile_cons, h]

/-- When the lower mark lies beyond the upper mark, the scan runs from the lower mark to
the end of the index. -/
theorem visited_tail {c : ZSetCache S} (hs : Ascending c.m_cache) (range : ZRangeSpec S)
    (hlt : (c.m_cache.takeWhile (beforeMark range.contain_max range.max)).length <
      (c.m_cache.takeWhile (beforeMark (!range.contain_min) range.min)).length) :
    c.visited range =
      c.m_cache.filter (fun e => !beforeMark (!range.contain_min) range.min e) := by
  rw [visited_eq hs.scoreSorted]
  split_ifs with hg
  · rw [scanElems_eq, if_neg (not_le.mpr hlt),
      drop_takeWhile_eq_filter hs.scoreSorted (fun _ _ => beforeMark_down _ _)]
  · have hall := lower_bound_end (not_not.mp hg)
    symm
    rw [List.filter_eq_nil_iff]
    intro e he
    have : beforeMark (!range.contain_min) range.min e = true :=
      (beforeMark_iff _ _ _).mpr (Or.inl (hall e he))
    simp [this]

omit [DoubleScore S] in
theorem mem_takeWhile_true {α : Type} {p : α → Bool} {l : List α} {a : α}
    (h : a ∈ l.takeWhile p) : p a = true := by
  induction l with
  | nil => cases h
  | cons b r ih =>
    rw [List.takeWhile_cons] at h
    by_cases hb : p b = true
    · rw [if_pos hb] at h
      rcases List.mem_cons.mp h with h | h
      · rw [h]; exact hb
      · exact ih h
    · rw [if_neg hb] at h
      cases h

omit [DoubleScore S] in
theorem length_elementValues (ws wa : Bool) (e : ZSetCaheElement S) :
    (elementValues ws wa e).length = 1 + ws.toNat + wa.toNat := by
  cases ws <;> cases wa <;> rfl

omit [DoubleScore S] in
theorem length_protocolCalls (ws wa : Bool) (l : ZSetCacheElementSet S) :
    (protocolCalls ws wa l).length = l.length * (1 + ws.toNat + wa.toNat) := by
  unfold protocolCalls
  rw [List.length_map, List.enum_length]
  induction l with
  | nil => simp
  | cons e r ih =>
    rw [List.map_cons, List.flatten_cons, List.length_append, ih, length_elementValues,
      List.length_cons, Nat.succ_mul]
    omega

omit [DoubleScore S] in
theorem getElem?_protocolCalls (ws wa : Bool) (l : ZSetCacheElementSet S) (k : Nat) :
    (protocolCalls ws wa l)[k]? =
      ((l.map (elementValues ws wa)).flatten)[k]?.map (fun v => (v, k)) := by
  unfold protocolCalls
  rw [List.getElem?_map, List.getElem?_enum]
  cases ((l.map (elementValues ws wa)).flatten)[k]? <;> rfl

omit [DoubleScore S] in
theorem map_fst_protocolCalls (ws wa : Bool) (l : ZSetCacheElementSet S) :
    (protocolCalls ws wa l).map Prod.fst = (l.map (elementValues ws wa)).flatten := by
  unfold protocolCalls
  rw [List.map_map]
  have : (Prod.fst ∘ fun p : Nat × CbValue S => (p.2, p.1)) = Prod.snd := rfl
  rw [this, List.enum_eq_enumFrom, List.enumFrom_map_snd]

/-- The lower bound test of the range, in terms of the lower mark. -/
theorem not_beforeMark_eq (range : ZRangeSpec S) (e : ZSetCaheElement S) :
    (!beforeMark (!range.contain_min) range.min e) =
      (if range.contain_min then decide (range.min ≤ e.score)
        else decide (range.min < e.score)) := by
  rw [Bool.eq_iff_iff, Bool.not_eq_true_eq_eq_false, ← Bool.not_eq_true, beforeMark_iff]
  cases range.contain_min
  · simp only [Bool.not_false, true_and, Bool.false_eq_true, if_false, decide_eq_true_eq]
    rw [← le_iff_lt_or_eq, not_le]
  · simp only [Bool.not_true, Bool.false_eq_true, false_and, or_false, if_true, not_lt,
      decide_eq_true_eq]

theorem Ascending.pairwise_keys {xs : ZSetCacheElementSet S} (h : Ascending xs) :
    xs.Pairwise (fun a b =>
      a.score < b.score ∨ (a.score = b.score ∧ strLt a.value b.value = true)) :=
  List.Pairwise.imp (fun hab => (elemLt_iff _ _).mp hab) h

omit [DoubleScore S] in
theorem totalCost_eq_sum (sz : Sizeof) (xs : ZSetCacheElementSet S) :
    totalCost sz xs =
      (xs.map (fun e => sz.sizeofZSetCaheElement + 2 * e.value.length + e.attr.length +
        sz.sizeofDouble)).sum := by
  unfold totalCost
  congr 1
  apply List.map_congr_left
  intro e _
  simp only [elementCost, entryCost]
  omega

/-- After `Add` with a score that `==` does not find equal to the stored one, or of a
member not stored, the ordering index holds the element with the arguments of the
call. -/
theorem mem_Add_self (sz : Sizeof) {c : ZSetCache S} (h : Inv sz c) (score : S)
    (value attr : Bytes) (ts : Bool)
    (hne : ∀ sit, dictFind c.m_cache_score_dict value = some sit →
      doubleEq sit score = false) :
    ({ score := score, value := value, attr := attr } : ZSetCaheElement S) ∈
      (c.Add sz score value attr ts).2.m_cache := by
  cases hf : dictFind c.m_cache_score_dict value with
  | none =>
    rw [Add_new sz score attr ts hf]
    exact (setInsert_perm (h.absent hf)).mem_iff.mpr (List.mem_cons_self _ _)
  | some sit =>
    have hsc : doubleEq sit score = false := hne sit hf
    obtain ⟨x, hx, hxv, hxs⟩ := h.mem_of_dict value sit hf
    subst hxv
    subst hxs
    rw [Add_changed sz h.ascending hx hf hsc attr ts]
    have hmem : ∀ y, y ∈ c.m_cache.erase x ↔ y ≠ x ∧ y ∈ c.m_cache :=
      fun y => h.ascending.nodup.mem_erase_iff
    have hfresh : ∀ y ∈ c.m_cache.erase x,
        y.value ≠ ({ score := score, value := x.value, attr := attr } :
          ZSetCaheElement S).value :=
      fun y hy hv => ((hmem y).mp hy).1 (h.unique ((hmem y).mp hy).2 hx hv)
    exact (setInsert_perm hfresh).mem_iff.mpr (List.mem_cons_self _ _)

end Protocol

/-! ## Main theorems -/

section Main

variable {S : Type} [DoubleScore S]

/-- C1 (index parity): after every sequence of `Add` and `Rem` calls on the empty cache,
the keys of `m_cache_score_dict` are exactly the members of the elements of `m_cache`,
no member occurs in two elements of `m_cache`, and the score of each element is the
score stored for its member in `m_cache_score_dict`. -/
theorem index_parity (sz : Sizeof) (ops : List (Op S)) :
    (∀ m, m ∈ (run sz ops).m_cache_score_dict.map Prod.fst ↔
        m ∈ (run sz ops).m_cache.map (fun e => e.value)) ∧
      ((run sz ops).m_cache.map (fun e => e.value)).Nodup ∧
      (∀ e ∈ (run sz ops).m_cache,
        dictFind (run sz ops).m_cache_score_dict e.value = some e.score) := by
  have h := inv_run sz ops
  refine ⟨?_, h.nodup_values, h.dict_of_mem⟩
  intro m
  rw [mem_keys_iff, List.mem_map]
  constructor
  · rintro ⟨v, hv⟩
    obtain ⟨e, he, hev, _⟩ := h.mem_of_dict m v hv
    exact ⟨e, he, hev⟩
  · rintro ⟨e, he, hev⟩
    exact ⟨e.score, hev ▸ h.dict_of_mem e he⟩

/-- C2 (range semantics, evaluated where the code departs from it): with the members
`a` at score 1 and `b` at score 2 stored, the range with `min = max = 1` and both bounds
excluded makes `GetRange` emit `b`; with `a` at score 1 and `b` at score 4 stored, the
range with `min = 3`, `max = 0` and both bounds included makes `GetRange` emit `b`. In
both cases the score of the emitted member lies outside the interval. -/
theorem GetRange_emits_outside_interval :
    emittedMembers ((run sampleSizes
        ([Op.add 1 [97] [] true, Op.add 2 [98] [] true] : List (Op Int))).GetRange
        { min := 1, max := 1, contain_min := false, contain_max := false } false false) =
        [[98]] ∧
      ({ min := 1, max := 1, contain_min := false, contain_max := false } :
        ZRangeSpec Int).contains 2 = false ∧
      emittedMembers ((run sampleSizes
        ([Op.add 1 [97] [] true, Op.add 4 [98] [] true] : List (Op Int))).GetRange
        { min := 3, max := 0, contain_min := true, contain_max := true } false false) =
        [[98]] ∧
      ({ min := 3, max := 0, contain_min := true, contain_max := true } :
        ZRangeSpec Int).contains 4 = false ∧
      dictFind (run sampleSizes
        ([Op.add 1 [97] [] true, Op.add 2 [98] [] true] : List (Op Int))).m_cache_score_dict
        [98] = some 2 ∧
      dictFind (run sampleSizes
        ([Op.add 1 [97] [] true, Op.add 4 [98] [] true] : List (Op Int))).m_cache_score_dict
        [98] = some 4 := by
  decide

/-- C3 (outcome of `Add`): on every state, `Add(score, member, attr, thread_safe)`
returns `ZSET_CACHE_NEW_ELEMENT` exactly when the member has no entry in the member to
score index, `ZSET_CACHE_NONEW_ELEMENT` exactly when its entry holds a score that `==`
finds equal to `score`, and `ZSET_CACHE_SCORE_CHANGED` exactly when its entry holds a
score that `==` finds different from `score`. When `score` is a number, the second case
is that the entry holds `score` and the third that it holds another score. -/
theorem Add_outcome_classification (sz : Sizeof) (c : ZSetCache S) (score : S)
    (member attr : Bytes) (thread_safe : Bool) :
    ((c.Add sz score member attr thread_safe).1 = AddResult.ZSET_CACHE_NEW_ELEMENT ↔
        dictFind c.m_cache_score_dict member = none) ∧
      ((c.Add sz score member attr thread_safe).1 = AddResult.ZSET_CACHE_NONEW_ELEMENT ↔
        ∃ s, dictFind c.m_cache_score_dict member = some s ∧ doubleEq s score = true) ∧
      ((c.Add sz score member attr thread_safe).1 = AddResult.ZSET_CACHE_SCORE_CHANGED ↔
        ∃ s, dictFind c.m_cache_score_dict member = some s ∧ doubleEq s score = false) ∧
      (DoubleScore.isNaN score = false →
        ((c.Add sz score member attr thread_safe).1 = AddResult.ZSET_CACHE_NONEW_ELEMENT ↔
          dictFind c.m_cache_score_dict member = some score) ∧
        ((c.Add sz score member attr thread_safe).1 = AddResult.ZSET_CACHE_SCORE_CHANGED ↔
          ∃ s, dictFind c.m_cache_score_dict member = some s ∧ s ≠ score)) := by
  rw [Add_result]
  cases hf : dictFind c.m_cache_score_dict member with
  | none => simp
  | some sit =>
    by_cases hsc : doubleEq sit score = true
    · have he := ((doubleEq_iff sit score).mp hsc).1
      subst he
      simp [hsc]
    · have hsc2 : doubleEq sit score = false := by simpa using hsc
      refine ⟨by simp [hsc2], by simp [hsc2], by simp [hsc2], ?_⟩
      intro hnan
      have hne : sit ≠ score := by
        intro he
        rw [he, doubleEq_self hnan] at hsc2
        exact Bool.noConfusion hsc2
      simp [hsc2, hne]

/-- C4 (postcondition and frame of `Add`): in every reachable state, after
`Add(score, member, attr, thread_safe)` the member to score index maps the member to
`score`, the ordering index holds an element with that score and member and no other
element for the member, and the entries of every other member, in both indexes, are
those from before the call. -/
theorem Add_postcondition_frame (sz : Sizeof) (ops : List (Op S)) (score : S)
    (member attr : Bytes) (thread_safe : Bool) :
    dictFind ((run sz ops).Add sz score member attr thread_safe).2.m_cache_score_dict member =
        some score ∧
      (∃ e ∈ ((run sz ops).Add sz score member attr thread_safe).2.m_cache,
        e.score = score ∧ e.value = member ∧
          ∀ e2 ∈ ((run sz ops).Add sz score member attr thread_safe).2.m_cache,
            e2.value = member → e2 = e) ∧
      (∀ m, m ≠ member →
        dictFind ((run sz ops).Add sz score member attr thread_safe).2.m_cache_score_dict m =
          dictFind (run sz ops).m_cache_score_dict m) ∧
      (∀ e : ZSetCaheElement S, e.value ≠ member →
        (e ∈ ((run sz ops).Add sz score member attr thread_safe).2.m_cache ↔
          e ∈ (run sz ops).m_cache)) := by
  have h := inv_run sz ops
  have h2 := inv_Add sz h score member attr thread_safe
  have hd : dictFind
      ((run sz ops).Add sz score member attr thread_safe).2.m_cache_score_dict member =
      some score := by
    rw [dictFind_Add, if_pos rfl]
  refine ⟨hd, ?_, ?_, ?_⟩
  · obtain ⟨e, he, hev, hes⟩ := h2.mem_of_dict member score hd
    exact ⟨e, he, hes, hev, fun e2 he2 hv => h2.unique he2 he (hv.trans hev.symm)⟩
  · intro m hm
    rw [dictFind_Add, if_neg hm]
  · intro e he
    exact mem_Add_other sz h score member attr thread_safe he

/-- C5 (memory accounting conservation): after any sequence of `Add` and `Rem` calls on
the empty cache, calling `Rem` on the members of any list that covers every member
still present brings `m_estimate_mem_size` back to the value the constructor gave it.
The counter arithmetic is taken modulo `2^32`, so this holds with and without
wrap-around. -/
theorem memory_accounting_conservation (sz : Sizeof) (ops : List (Op S)) (ms : List Bytes)
    (hms : ∀ m, dictFind (run sz ops).m_cache_score_dict m ≠ none → m ∈ ms) :
    (remAll sz ms (run sz ops)).m_estimate_mem_size =
      (ZSetCache.new sz : ZSetCache S).m_estimate_mem_size := by
  have h := inv_remAll sz ms (inv_run sz ops)
  have hnone : ∀ m, dictFind (remAll sz ms (run sz ops)).m_cache_score_dict m = none := by
    intro m
    rw [dictFind_remAll]
    by_cases hm : m ∈ ms
    · rw [if_pos hm]
    · rw [if_neg hm]
      by_contra hne
      exact hm (hms m hne)
  have hempty : (remAll sz ms (run sz ops)).m_cache = [] := by
    cases hc : (remAll sz ms (run sz ops)).m_cache with
    | nil => rfl
    | cons e r =>
      have he := h.dict_of_mem e (by rw [hc]; exact List.mem_cons_self _ _)
      rw [hnone] at he
      exact Option.noConfusion he
  rw [h.acct, hempty]
  simp [totalCost, ZSetCache.new]

/-- A concrete instance of C5: two members stored, one of them with a changed score,
then `Rem` on the members `b`, `a` and the absent member `c`. -/
theorem memory_accounting_conservation_witness :
    (∀ m, dictFind (run sampleSizes ([Op.add 1 [97] [7] true, Op.add 2 [98] [] false,
        Op.add 3 [97] [] true, Op.rem [99]] : List (Op Int))).m_cache_score_dict m ≠ none →
        m ∈ [[98], [97], [99]]) ∧
      (remAll sampleSizes [[98], [97], [99]]
        (run sampleSizes ([Op.add 1 [97] [7] true, Op.add 2 [98] [] false,
          Op.add 3 [97] [] true, Op.rem [99]] : List (Op Int)))).m_estimate_mem_size =
        (ZSetCache.new sampleSizes : ZSetCache Int).m_estimate_mem_size :=
  have hd : (run sampleSizes ([Op.add 1 [97] [7] true, Op.add 2 [98] [] false,
      Op.add 3 [97] [] true, Op.rem [99]] : List (Op Int))).m_cache_score_dict =
      [([97], 3), ([98], 2)] := by decide
  have hms : ∀ m, dictFind (run sampleSizes ([Op.add 1 [97] [7] true, Op.add 2 [98] [] false,
      Op.add 3 [97] [] true, Op.rem [99]] : List (Op Int))).m_cache_score_dict m ≠ none →
      m ∈ [[98], [97], [99]] := by
    intro m hm
    rw [hd] at hm
    by_cases h1 : [97] = m
    · simp [← h1]
    · by_cases h2 : [98] = m
      · simp [← h2]
      · exact absurd (by simp [dictFind, h1, h2]) hm
  ⟨hms, memory_accounting_conservation _ _ _ hms⟩

/-- C6 (`Rem` on an absent member): on every state, when the member has no entry in the
member to score index, `Rem` returns -1 and the state, that is both indexes and the
memory counter, is unchanged. -/
theorem Rem_absent_member (sz : Sizeof) (c : ZSetCache S) (member : Bytes)
    (h : dictFind c.m_cache_score_dict member = none) : c.Rem sz member = (-1, c) :=
  Rem_absent sz h

/-- A concrete instance of C6: the member `z` on the sample cache. -/
theorem Rem_absent_member_witness :
    dictFind (run sampleSizes sampleOps).m_cache_score_dict [122] = none ∧
      (run sampleSizes sampleOps).Rem sampleSizes [122] = (-1, run sampleSizes sampleOps) :=
  ⟨by decide, Rem_absent_member _ _ _ (by decide)⟩

/-- C7 (`Rem` on a present member): in every reachable state, when the member `m` is
stored with score `s` and attribute `a`, `Rem(m)` returns 0; afterwards `m` has no entry
in the member to score index and no element in the ordering index, the entries of every
other member are unchanged in both indexes, and the counter has gone down by
`(sizeof(ZSetCaheElement) + |m| + |a|) + (|m| + sizeof(double))`: modulo `2^32` in
general, and as a plain difference when the counter is at least that amount. This is
the amount by which `Add` raises the counter when it stores `m` with attribute `a` as a
new element. -/
theorem Rem_present_member (sz : Sizeof) (ops : List (Op S)) (s : S) (m a : Bytes)
    (hx : ({ score := s, value := m, attr := a } : ZSetCaheElement S) ∈ (run sz ops).m_cache) :
    ((run sz ops).Rem sz m).1 = 0 ∧
      dictFind ((run sz ops).Rem sz m).2.m_cache_score_dict m = none ∧
      (∀ e ∈ ((run sz ops).Rem sz m).2.m_cache, e.value ≠ m) ∧
      (∀ k, k ≠ m → dictFind ((run sz ops).Rem sz m).2.m_cache_score_dict k =
        dictFind (run sz ops).m_cache_score_dict k) ∧
      (∀ e : ZSetCaheElement S, e.value ≠ m →
        (e ∈ ((run sz ops).Rem sz m).2.m_cache ↔ e ∈ (run sz ops).m_cache)) ∧
      u32 (((run sz ops).Rem sz m).2.m_estimate_mem_size +
          ((sz.sizeofZSetCaheElement + m.length + a.length) + (m.length + sz.sizeofDouble))) =
        (run sz ops).m_estimate_mem_size ∧
      ((sz.sizeofZSetCaheElement + m.length + a.length) + (m.length + sz.sizeofDouble) ≤
          (run sz ops).m_estimate_mem_size →
        ((run sz ops).Rem sz m).2.m_estimate_mem_size =
          (run sz ops).m_estimate_mem_size -
            ((sz.sizeofZSetCaheElement + m.length + a.length) + (m.length + sz.sizeofDouble))) ∧
      (∀ (c0 : ZSetCache S) (s0 : S) (ts : Bool), dictFind c0.m_cache_score_dict m = none →
        (c0.Add sz s0 m a ts).2.m_estimate_mem_size =
          u32 (c0.m_estimate_mem_size +
            ((sz.sizeofZSetCaheElement + m.length + a.length) + (m.length + sz.sizeofDouble)))) := by
  have h := inv_run sz ops
  have hd := h.dict_of_mem _ hx
  have hrem := Rem_present sz h.ascending hx hd
  have hmem := mem_Rem sz h hx
  simp only [] at hd hrem hmem
  have hlt : (run sz ops).m_estimate_mem_size < 4294967296 := by
    rw [h.acct]; exact u32_lt _
  refine ⟨?_, ?_, ?_, ?_, ?_, ?_, ?_, ?_⟩
  · rw [hrem]
  · rw [dictFind_Rem, if_pos rfl]
  · intro e he
    exact ((hmem e).mp he).1
  · intro k hk
    rw [dictFind_Rem, if_neg hk]
  · intro e he
    rw [hmem]
    exact ⟨fun h2 => h2.2, fun h2 => ⟨he, h2⟩⟩
  · rw [hrem]
    simp only [u32, elementCost, entryCost] at hlt ⊢
    omega
  · intro hle
    rw [hrem]
    simp only [u32, elementCost, entryCost] at hlt ⊢
    omega
  · intro c0 s0 ts hc0
    rw [Add_new sz s0 a ts hc0]
    simp only [elementCost, entryCost]

/-- A concrete instance of C7: the member `b`, stored with score 2 and attribute `[5]`
in the sample cache. -/
theorem Rem_present_member_witness :
    ({ score := 2, value := [98], attr := [5] } : ZSetCaheElement Int) ∈
        (run sampleSizes sampleOps).m_cache ∧
      ((run sampleSizes sampleOps).Rem sampleSizes [98]).1 = 0 ∧
      dictFind ((run sampleSizes sampleOps).Rem sampleSizes [98]).2.m_cache_score_dict [98] =
        none :=
  ⟨by decide,
    (Rem_present_member sampleSizes sampleOps 2 [98] [5] (by decide)).1,
    (Rem_present_member sampleSizes sampleOps 2 [98] [5] (by decide)).2.1⟩

/-- C8, as stated, fails when the score is not a number: after `Add(NaN, M, A)` on the
empty cache, the stored score fails the `==` against `NaN`, and the second
`Add(NaN, M, A)` returns `ZSET_CACHE_SCORE_CHANGED`, not `ZSET_CACHE_NONEW_ELEMENT`. -/
theorem Add_twice_at_NaN :
    DoubleScore.isNaN (⊤ : WithTop Int) = true ∧
      (((ZSetCache.new sampleSizes : ZSetCache (WithTop Int)).Add sampleSizes ⊤ [109] [7]
        true).2.Add sampleSizes ⊤ [109] [7] true).1 = AddResult.ZSET_CACHE_SCORE_CHANGED ∧
      (((ZSetCache.new sampleSizes : ZSetCache (WithTop Int)).Add sampleSizes ⊤ [109] [7]
        true).2.Add sampleSizes ⊤ [109] [7] true).1 ≠ AddResult.ZSET_CACHE_NONEW_ELEMENT := by
  have hres : (((ZSetCache.new sampleSizes : ZSetCache (WithTop Int)).Add sampleSizes ⊤ [109]
      [7] true).2.Add sampleSizes ⊤ [109] [7] true).1 =
      AddResult.ZSET_CACHE_SCORE_CHANGED := by
    rw [Add_result, dictFind_Add, if_pos rfl]
    rfl
  refine ⟨rfl, hres, ?_⟩
  rw [hres]
  exact fun h => AddResult.noConfusion h

/-- C8 (idempotence of re-add), amended: on every state and for every score `S` that is a
number, after `Add(S, M, A)` a second `Add(S, M, A)` returns `ZSET_CACHE_NONEW_ELEMENT`
and leaves the state, that is both indexes and the memory counter, as the first call
left it. -/
theorem Add_twice_idempotent (sz : Sizeof) (c : ZSetCache S) (score : S) (member attr : Bytes)
    (ts1 ts2 : Bool) (hnum : DoubleScore.isNaN score = false) :
    (c.Add sz score member attr ts1).2.Add sz score member attr ts2 =
      (AddResult.ZSET_CACHE_NONEW_ELEMENT, (c.Add sz score member attr ts1).2) := by
  refine Add_same sz attr ts2 ?_ (doubleEq_self hnum)
  rw [dictFind_Add, if_pos rfl]

/-- A concrete instance of the amended C8: the member `e` is added twice with score 4 to
the sample cache. -/
theorem Add_twice_idempotent_witness :
    DoubleScore.isNaN (4 : Int) = false ∧
      ((run sampleSizes sampleOps).Add sampleSizes 4 [101] [7] true).2.Add
          sampleSizes 4 [101] [7] false =
        (AddResult.ZSET_CACHE_NONEW_ELEMENT,
          ((run sampleSizes sampleOps).Add sampleSizes 4 [101] [7] true).2) :=
  ⟨rfl, Add_twice_idempotent sampleSizes (run sampleSizes sampleOps) 4 [101] [7] true false rfl⟩

/-- C11 (ordering of range results): in every reachable state, for every range and flag
combination, well formed or not, the invocations of `GetRange` are those of the
emission protocol on the visited elements, and the visited elements are strictly
ascending by score and, at equal scores, by member bytes; hence no element and no
member is emitted twice. -/
theorem GetRange_results_ordered (sz : Sizeof) (ops : List (Op S)) (range : ZRangeSpec S)
    (ws wa : Bool) :
    (run sz ops).GetRange range ws wa =
        protocolCalls ws wa ((run sz ops).visited range) ∧
      ((run sz ops).visited range).Pairwise (fun a b =>
        a.score < b.score ∨ (a.score = b.score ∧ strLt a.value b.value = true)) ∧
      ((run sz ops).visited range).Nodup ∧
      (emittedMembers ((run sz ops).GetRange range ws wa)).Nodup := by
  have h := inv_run sz ops
  have hsub := visited_sublist (run sz ops) range
  have hasc : Ascending ((run sz ops).visited range) := List.Pairwise.sublist hsub h.ascending
  refine ⟨GetRange_eq_protocol _ _ _ _, hasc.pairwise_keys, hasc.nodup, ?_⟩
  rw [emittedMembers_eq_visited]
  exact List.Nodup.sublist (hsub.map _) h.nodup_values

/-- C12 (emission protocol): on every state, for every range and flags, when `GetRange`
visits n elements it invokes the callback n * (1 + [with_scores] + [with_attrs]) times,
the k-th invocation receives the cursor k, and the values handed over are, element by
element in visiting order, the member, then the score when `with_scores`, then the
attribute of the same element when `with_attrs`. -/
theorem GetRange_emission_protocol (c : ZSetCache S) (range : ZRangeSpec S) (ws wa : Bool) :
    (c.GetRange range ws wa).length =
        (c.visited range).length * (1 + ws.toNat + wa.toNat) ∧
      (∀ (k : Nat) (v : CbValue S) (j : Nat),
        (c.GetRange range ws wa)[k]? = some (v, j) → j = k) ∧
      (c.GetRange range ws wa).map Prod.fst =
        ((c.visited range).map (fun e =>
          CbValue.member e.value ::
            ((if ws then [CbValue.score e.score] else []) ++
              (if wa then [CbValue.attr e.attr] else [])))).flatten := by
  rw [GetRange_eq_protocol]
  refine ⟨length_protocolCalls _ _ _, ?_, map_fst_protocolCalls _ _ _⟩
  intro k v j hk
  rw [getElem?_protocolCalls] at hk
  cases hv : ((List.map (elementValues ws wa) (c.visited range)).flatten)[k]? with
  | none => rw [hv] at hk; exact Option.noConfusion hk
  | some w =>
    rw [hv] at hk
    exact (congrArg Prod.snd (Option.some.inj hk)).symm

/-- C13 (the `Slice` overload of `Add`, evaluated where the code departs from the
claim): the overload passes on the value built from the slice `attr` as the member and
a default value as the attribute. With the raw codec, `Add(1, "m", "x")` on the empty
cache stores the member `x` with an empty attribute, where the `ValueData` overload
called with each field built from its own slice stores the member `m` with the
attribute `x`. -/
theorem AddSlice_stores_attr_as_member :
    (∀ (codec : ValueCodec) (sz : Sizeof) (c : ZSetCache S) (score : S) (value attr : Bytes)
        (ts : Bool),
        c.AddSlice codec sz score value attr ts =
          c.Add sz score (codec.SetValue (codec.SetValue codec.empty value true) attr true)
            codec.empty ts) ∧
      ((ZSetCache.new sampleSizes : ZSetCache Int).AddSlice rawCodec sampleSizes 1
        [109] [120] true).2.m_cache = [{ score := 1, value := [120], attr := [] }] ∧
      ((ZSetCache.new sampleSizes : ZSetCache Int).AddOwnFields rawCodec sampleSizes 1
        [109] [120] true).2.m_cache = [{ score := 1, value := [109], attr := [120] }] ∧
      (ZSetCache.new sampleSizes : ZSetCache Int).AddSlice rawCodec sampleSizes 1
          [109] [120] true ≠
        (ZSetCache.new sampleSizes : ZSetCache Int).AddOwnFields rawCodec sampleSizes 1
          [109] [120] true := by
  refine ⟨fun _ _ _ _ _ _ _ => rfl, by decide, by decide, by decide⟩

/-- C16 (exact memory accounting): in every reachable state in which the exact total
fits in 32 bits, `m_estimate_mem_size` is `sizeof(ZSetCache)` plus the sum, over the
stored elements with member m and attribute a, of
`sizeof(ZSetCaheElement) + 2*|m| + |a| + sizeof(double)`; hence the counter is not below
its base value. -/
theorem exact_memory_accounting (sz : Sizeof) (ops : List (Op S))
    (hfit : sz.sizeofZSetCache +
      ((run sz ops).m_cache.map (fun e =>
        sz.sizeofZSetCaheElement + 2 * e.value.length + e.attr.length +
          sz.sizeofDouble)).sum < 4294967296) :
    (run sz ops).m_estimate_mem_size =
        sz.sizeofZSetCache +
          ((run sz ops).m_cache.map (fun e =>
            sz.sizeofZSetCaheElement + 2 * e.value.length + e.attr.length +
              sz.sizeofDouble)).sum ∧
      sz.sizeofZSetCache ≤ (run sz ops).m_estimate_mem_size := by
  have h := (inv_run sz ops).acct
  rw [totalCost_eq_sum, u32_of_lt hfit] at h
  exact ⟨h, by rw [h]; exact Nat.le_add_right _ _⟩

/-- A concrete instance of C16: the sample cache, whose counter is 64 + 4 * 34 + 1. -/
theorem exact_memory_accounting_witness :
    sampleSizes.sizeofZSetCache +
        ((run sampleSizes sampleOps).m_cache.map (fun e =>
          sampleSizes.sizeofZSetCaheElement + 2 * e.value.length + e.attr.length +
            sampleSizes.sizeofDouble)).sum < 4294967296 ∧
      (run sampleSizes sampleOps).m_estimate_mem_size = 201 :=
  ⟨by decide,
    (exact_memory_accounting sampleSizes sampleOps (by decide)).1.trans (by decide)⟩

/-- C17 (empty-member probe): in an index that is ascending by (score, member bytes), the
lower-bound lookup of the probe with score `x` and the empty member returns a position
within the index such that every element before it has a score below `x` and every
element from it on has a score of at least `x`: the position of the first element with a
score of at least `x`, or the end position when there is none. -/
theorem lower_bound_empty_member_probe (xs : ZSetCacheElementSet S) (x : S) (a : Bytes)
    (hs : Ascending xs) :
    lower_bound xs { score := x, value := [], attr := a } ≤ xs.length ∧
      (∀ e ∈ xs.take (lower_bound xs { score := x, value := [], attr := a }), e.score < x) ∧
      (∀ e ∈ xs.drop (lower_bound xs { score := x, value := [], attr := a }),
        x ≤ e.score) := by
  rw [lower_bound_eq]
  refine ⟨?_, ?_, ?_⟩
  · exact (List.takeWhile_sublist (fun e : ZSetCaheElement S => decide (e.score < x))).length_le
  · intro e he
    rw [take_length_takeWhile] at he
    have h2 := mem_takeWhile_true he
    exact of_decide_eq_true h2
  · intro e he
    rw [drop_takeWhile_eq_filter hs.scoreSorted] at he
    · have := (List.mem_filter.mp he).2
      simpa using this
    · intro p q hpq hq
      exact decide_eq_true (lt_of_le_of_lt hpq (of_decide_eq_true hq))

/-- A concrete instance of C17: the index holds an element with the empty member at
score 2, and the probe of score 2 lands on it, at position 1. -/
theorem lower_bound_empty_member_probe_witness :
    Ascending ([{ score := 1, value := [97], attr := [] },
        { score := 2, value := [], attr := [7] }, { score := 2, value := [98], attr := [] },
        { score := 3, value := [99], attr := [] }] : ZSetCacheElementSet Int) ∧
      lower_bound ([{ score := 1, value := [97], attr := [] },
        { score := 2, value := [], attr := [7] }, { score := 2, value := [98], attr := [] },
        { score := 3, value := [99], attr := [] }] : ZSetCacheElementSet Int)
        { score := 2, value := [], attr := [] } = 1 ∧
      ∀ e ∈ ([{ score := 1, value := [97], attr := [] },
        { score := 2, value := [], attr := [7] }, { score := 2, value := [98], attr := [] },
        { score := 3, value := [99], attr := [] }] : ZSetCacheElementSet Int).drop
          (lower_bound ([{ score := 1, value := [97], attr := [] },
            { score := 2, value := [], attr := [7] },
            { score := 2, value := [98], attr := [] },
            { score := 3, value := [99], attr := [] }] : ZSetCacheElementSet Int)
            { score := 2, value := [], attr := [] }), (2 : Int) ≤ e.score :=
  ⟨by unfold Ascending; decide, by decide,
    (lower_bound_empty_member_probe _ 2 [] (by unfold Ascending; decide)).2.2⟩

/-- C19 (inverted range): in every reachable state, for a range with `min > max` such
that some stored element has a score strictly between `max` and `min`, `GetRange` visits
exactly the elements with a score of at least `min` when `contain_min`, above `min`
otherwise: it scans from the lower position to the end of the index. -/
theorem inverted_range_scans_to_end (sz : Sizeof) (ops : List (Op S)) (range : ZRangeSpec S)
    (ws wa : Bool) (hinv : range.max < range.min)
    (hmid : ∃ e ∈ (run sz ops).m_cache, range.max < e.score ∧ e.score < range.min) :
    (run sz ops).visited range =
        (run sz ops).m_cache.filter (fun e =>
          if range.contain_min then decide (range.min ≤ e.score)
          else decide (range.min < e.score)) ∧
      (run sz ops).GetRange range ws wa =
        protocolCalls ws wa ((run sz ops).m_cache.filter (fun e =>
          if range.contain_min then decide (range.min ≤ e.score)
          else decide (range.min < e.score))) := by
  have h := inv_run sz ops
  obtain ⟨e, he, he1, he2⟩ := hmid
  have hlt : ((run sz ops).m_cache.takeWhile (beforeMark range.contain_max range.max)).length <
      ((run sz ops).m_cache.takeWhile (beforeMark (!range.contain_min) range.min)).length := by
    rw [takeWhile_eq_filter h.ascending.scoreSorted (fun _ _ => beforeMark_down _ _),
      takeWhile_eq_filter h.ascending.scoreSorted (fun _ _ => beforeMark_down _ _)]
    refine length_filter_lt ?_ he ?_ ?_
    · intro a ha
      rw [beforeMark_iff] at ha ⊢
      rcases ha with ha | ⟨_, ha⟩
      · exact Or.inl (lt_trans ha hinv)
      · exact Or.inl (ha ▸ hinv)
    · exact (beforeMark_iff _ _ _).mpr (Or.inl he2)
    · rw [← Bool.not_eq_true, beforeMark_iff]
      rintro (h2 | ⟨_, h2⟩)
      · exact lt_irrefl _ (lt_trans he1 h2)
      · rw [h2] at he1; exact lt_irrefl _ he1
  have hv := visited_tail h.ascending range hlt
  have hf : (run sz ops).m_cache.filter
      (fun e => !beforeMark (!range.contain_min) range.min e) =
      (run sz ops).m_cache.filter (fun e =>
        if range.contain_min then decide (range.min ≤ e.score)
        else decide (range.min < e.score)) :=
    List.filter_congr fun a _ => not_beforeMark_eq range a
  rw [hf] at hv
  exact ⟨hv, by rw [GetRange_eq_protocol, hv]⟩

/-- A concrete instance of C19: on the sample cache with the scores 1, 2, 2, 3 the range
with `min = 3` and `max = 1`, both included, has the two elements of score 2 strictly
between its bounds, and the scan yields the member `d` of score 3. -/
theorem inverted_range_scans_to_end_witness :
    (1 : Int) < 3 ∧
      (∃ e ∈ (run sampleSizes sampleOps).m_cache, (1 : Int) < e.score ∧ e.score < 3) ∧
      (run sampleSizes sampleOps).visited
          { min := 3, max := 1, contain_min := true, contain_max := true } =
        (run sampleSizes sampleOps).m_cache.filter (fun e =>
          if ({ min := 3, max := 1, contain_min := true, contain_max := true } :
            ZRangeSpec Int).contain_min then decide ((3 : Int) ≤ e.score)
          else decide ((3 : Int) < e.score)) ∧
      emittedMembers ((run sampleSizes sampleOps).GetRange
        { min := 3, max := 1, contain_min := true, contain_max := true } false false) =
        [[100]] :=
  ⟨by decide, ⟨{ score := 2, value := [98], attr := [5] }, by decide, by decide, by decide⟩,
    (inverted_range_scans_to_end sampleSizes sampleOps
      { min := 3, max := 1, contain_min := true, contain_max := true } false false
      (by decide)
      ⟨{ score := 2, value := [98], attr := [5] }, by decide, by decide, by decide⟩).1,
    by decide⟩

/-- C20, as stated, fails when the stored score is not a number: with the member `m`
stored with score `NaN` and attribute `[5]`, `Add(NaN, m, [9])` returns
`ZSET_CACHE_SCORE_CHANGED` and the stored attribute becomes `[9]`. -/
theorem Add_same_score_at_NaN :
    DoubleScore.isNaN (⊤ : WithTop Int) = true ∧
      ({ score := ⊤, value := [109], attr := [5] } : ZSetCaheElement (WithTop Int)) ∈
        (run sampleSizes ([Op.add ⊤ [109] [5] true] : List (Op (WithTop Int)))).m_cache ∧
      ((run sampleSizes ([Op.add ⊤ [109] [5] true] : List (Op (WithTop Int)))).Add
        sampleSizes ⊤ [109] [9] true).1 = AddResult.ZSET_CACHE_SCORE_CHANGED ∧
      ((run sampleSizes ([Op.add ⊤ [109] [5] true] : List (Op (WithTop Int)))).Add
        sampleSizes ⊤ [109] [9] true).2.m_cache =
        [{ score := ⊤, value := [109], attr := [9] }] ∧
      (run sampleSizes ([Op.add ⊤ [109] [5] true] : List (Op (WithTop Int)))).Add
          sampleSizes ⊤ [109] [9] true ≠
        (AddResult.ZSET_CACHE_NONEW_ELEMENT,
          run sampleSizes ([Op.add ⊤ [109] [5] true] : List (Op (WithTop Int)))) := by
  have hres : ((run sampleSizes ([Op.add ⊤ [109] [5] true] : List (Op (WithTop Int)))).Add
      sampleSizes ⊤ [109] [9] true).1 = AddResult.ZSET_CACHE_SCORE_CHANGED := by
    rw [Add_result]
    rfl
  refine ⟨rfl, by decide, hres, by decide, ?_⟩
  intro h
  rw [h] at hres
  exact AddResult.noConfusion hres

/-- C20 (attribute update asymmetry of `Add`), amended: in every reachable state in which
the member `M` is stored with score `S0` and attribute `A`: when `S0` is a number,
`Add(S0, M, A2)` returns `ZSET_CACHE_NONEW_ELEMENT` and leaves the whole state, stored
attribute and counter included, as it was, so that a later `GetRange` with attributes
over an interval containing `S0` hands over `M`, its score when asked for, and then `A`;
whereas `Add(S2, M, A2)` with a score `S2` that `==` finds different from `S0` returns
`ZSET_CACHE_SCORE_CHANGED`, leaves `(S2, M, A2)` as the only element for `M`, and changes
the counter by `|A2| - |A|`: modulo `2^32` in general, and as plain numbers when the
counter is at least `|A|` and the new value fits in 32 bits. -/
theorem Add_attribute_asymmetry (sz : Sizeof) (ops : List (Op S)) (S0 : S) (M A : Bytes)
    (hx : ({ score := S0, value := M, attr := A } : ZSetCaheElement S) ∈
      (run sz ops).m_cache) :
    (DoubleScore.isNaN S0 = false →
        (∀ (A2 : Bytes) (ts : Bool),
          (run sz ops).Add sz S0 M A2 ts =
            (AddResult.ZSET_CACHE_NONEW_ELEMENT, run sz ops)) ∧
        (∀ (A2 : Bytes) (ts : Bool) (range : ZRangeSpec S) (ws : Bool),
          range.contains S0 = true →
          (elementValues ws true ({ score := S0, value := M, attr := A } : ZSetCaheElement S)
            <:+: (((run sz ops).Add sz S0 M A2 ts).2.GetRange range ws true).map Prod.fst))) ∧
      (∀ (S2 : S) (A2 : Bytes) (ts : Bool), doubleEq S0 S2 = false →
        ((run sz ops).Add sz S2 M A2 ts).1 = AddResult.ZSET_CACHE_SCORE_CHANGED ∧
        ({ score := S2, value := M, attr := A2 } : ZSetCaheElement S) ∈
          ((run sz ops).Add sz S2 M A2 ts).2.m_cache ∧
        (∀ e ∈ ((run sz ops).Add sz S2 M A2 ts).2.m_cache, e.value = M →
          e = { score := S2, value := M, attr := A2 }) ∧
        u32 (((run sz ops).Add sz S2 M A2 ts).2.m_estimate_mem_size + A.length) =
          u32 ((run sz ops).m_estimate_mem_size + A2.length) ∧
        (A.length ≤ (run sz ops).m_estimate_mem_size →
          (run sz ops).m_estimate_mem_size - A.length + A2.length < 4294967296 →
          ((run sz ops).Add sz S2 M A2 ts).2.m_estimate_mem_size + A.length =
            (run sz ops).m_estimate_mem_size + A2.length)) := by
  have h := inv_run sz ops
  have hd := h.dict_of_mem _ hx
  simp only [] at hd
  refine ⟨?_, ?_⟩
  · intro hnum
    have hsame : ∀ (A2 : Bytes) (ts : Bool),
        (run sz ops).Add sz S0 M A2 ts = (AddResult.ZSET_CACHE_NONEW_ELEMENT, run sz ops) :=
      fun A2 ts => Add_same sz A2 ts hd (doubleEq_self hnum)
    refine ⟨hsame, ?_⟩
    intro A2 ts range ws hc
    rw [hsame, GetRange_eq_protocol, map_fst_protocolCalls,
      visited_wellFormed h.ascending (wellFormed_of_contains hc)]
    apply List.infix_of_mem_flatten
    exact List.mem_map_of_mem _ (List.mem_filter.mpr ⟨hx, hc⟩)
  · intro S2 A2 ts hne
    have h2 := inv_Add sz h S2 M A2 ts
    have hne2 : ∀ sit, dictFind (run sz ops).m_cache_score_dict M = some sit →
        doubleEq sit S2 = false := by
      intro sit hsit
      rw [hd] at hsit
      rw [← Option.some.inj hsit]
      exact hne
    have hmem := mem_Add_self sz h S2 M A2 ts hne2
    have hchg := Add_changed sz h.ascending hx hd hne A2 ts
    simp only [] at hchg
    have hlt : (run sz ops).m_estimate_mem_size < 4294967296 := by
      rw [h.acct]; exact u32_lt _
    refine ⟨?_, hmem, fun e he hv => h2.unique he hmem hv, ?_, ?_⟩
    · rw [hchg]
    · rw [hchg]
      simp only [u32, elementCost] at hlt ⊢
      omega
    · intro h3 h4
      rw [hchg]
      simp only [u32, elementCost] at hlt ⊢
      omega

/-- A concrete instance of the amended C20: the member `b` of the sample cache, stored
with score 2 and attribute `[5]`. -/
theorem Add_attribute_asymmetry_witness :
    ({ score := 2, value := [98], attr := [5] } : ZSetCaheElement Int) ∈
        (run sampleSizes sampleOps).m_cache ∧
      (run sampleSizes sampleOps).Add sampleSizes 2 [98] [9, 9] true =
        (AddResult.ZSET_CACHE_NONEW_ELEMENT, run sampleSizes sampleOps) ∧
      ((run sampleSizes sampleOps).Add sampleSizes 7 [98] [9, 9] true).1 =
        AddResult.ZSET_CACHE_SCORE_CHANGED :=
  ⟨by decide,
    ((Add_attribute_asymmetry sampleSizes sampleOps 2 [98] [5] (by decide)).1 rfl).1
      [9, 9] true,
    ((Add_attribute_asymmetry sampleSizes sampleOps 2 [98] [5] (by decide)).2
      7 [9, 9] true (by decide)).1⟩

end Main

end Ardb
